import Mathlib

/-!
# CNB Data Parser: conversion engine

A shallow embedding of the conversion code of `Window.cpp` (row counting, the
row-limit divisor, the per-column decoder, the voltage mapping and the
conversion loop) together with the properties proved about it.

Conventions of the embedding:

* `quint64` values are natural numbers; every operation that can wrap is
  written with an explicit `% 2 ^ 64`.
* A step that C++ leaves undefined (a division by zero, a shift of an `int` by
  at least its width) yields `none`.
* `double` values are modelled by exact rationals.
* Loops that are not structurally bounded take a fuel argument; `none` is also
  the answer of a loop that did not finish within its fuel.
-/

namespace CnbDataParser

set_option maxRecDepth 100000

/-! ## Data model -/

/-- One byte of a file or of the decoding buffer. -/
abbrev Byte := Fin 256

/-- Number of values of a `quint64`. -/
abbrev quint64Size : Nat := 2 ^ 64

/-- The widgets of `Window` that the conversion code reads.  The parallel
lists are the `QList`s of the data layout, one entry per created row of
widgets; `at(index)` is read with a default outside the list. -/
structure Window where
  /-- Text of the combo box `comboInfile`. -/
  comboInfile : String
  /-- Text of the combo box `comboOutfile`. -/
  comboOutfile : String
  /-- The value `comboRowLimit->currentText().toULongLong()`. -/
  comboRowLimit : Nat
  /-- The value `spinColumns->value()`. -/
  spinColumns : Nat
  /-- The values `dataSpinNumBytes.at(index)->value()`. -/
  dataSpinNumBytes : List Nat
  /-- The states `dataCheckBox.at(index)->isChecked()` (column is a counter). -/
  dataCheckBox : List Bool
  /-- The texts `dataComboName.at(index)->currentText()`. -/
  dataComboName : List String
  /-- The states `dataComboName.at(index)->isHidden()`. -/
  dataComboHidden : List Bool
  /-- The state `checkBoxWriteColNames->isChecked()`. -/
  checkBoxWriteColNames : Bool
  /-- The state `checkBoxEndian->isChecked()`. -/
  checkBoxEndian : Bool
  /-- The value `minVoltage->value()`. -/
  minVoltage : ℚ
  /-- The value `maxVoltage->value()`. -/
  maxVoltage : ℚ

/-- The constant `maxColumnBytes` of `Window.h`. -/
def maxColumnBytes : Nat := 8

/-- What the widget ranges set up by `Window` guarantee: `spinColumns` is in
`1..255`, every displayed column has its widgets, a byte count in
`1..maxColumnBytes` and a name box that is not hidden, and the row limit is a
`quint64`. -/
def Window.Valid (w : Window) : Prop :=
  1 ≤ w.spinColumns ∧ w.spinColumns ≤ 255 ∧
  w.spinColumns ≤ w.dataSpinNumBytes.length ∧
  w.spinColumns ≤ w.dataCheckBox.length ∧
  w.spinColumns ≤ w.dataComboName.length ∧
  w.spinColumns ≤ w.dataComboHidden.length ∧
  (∀ b ∈ w.dataSpinNumBytes.take w.spinColumns, 1 ≤ b ∧ b ≤ maxColumnBytes) ∧
  (∀ h ∈ w.dataComboHidden.take w.spinColumns, h = false) ∧
  w.comboRowLimit < quint64Size

instance (w : Window) : Decidable w.Valid := by
  unfold Window.Valid; infer_instance

/-- The file system as the program sees it.  `content` is keyed by canonical
path; `none` means that no such file exists. -/
structure Disk where
  /-- The result of `QFileInfo::canonicalFilePath` for a file name. -/
  canonicalFilePath : String → String
  /-- The bytes of the file with that canonical path. -/
  content : String → Option (List Byte)
  /-- Whether the file with that canonical path may be opened for writing. -/
  writable : String → Bool

/-- The function `QString::trimmed`: white space removed at both ends. -/
def trimmed (s : String) : String :=
  String.mk ((s.data.dropWhile Char.isWhitespace).reverse.dropWhile Char.isWhitespace).reverse

/-- Opening a file name with `QIODevice::ReadOnly`: its bytes, or `none` when
the file cannot be opened. -/
def Disk.openRead (disk : Disk) (fileName : String) : Option (List Byte) :=
  disk.content (disk.canonicalFilePath fileName)

/-! ## Row counting and the row-limit divisor -/

/-- The function `Window::rowDataSize`: the sum of the byte counts of the
displayed columns. -/
def rowDataSize (w : Window) : Nat :=
  (List.range w.spinColumns).foldl
    (fun accumulator index => accumulator + w.dataSpinNumBytes.getD index 0) 0

/-- The function `Window::infileNumberRows`.  The file is opened under the
trimmed text of `comboInfile`; a file that cannot be opened has 0 rows.
`none` is the division by a zero `rowSize`. -/
def infileNumberRows (w : Window) (disk : Disk) : Option Nat :=
  match disk.openRead (trimmed w.comboInfile) with
  | none => some 0
  | some data =>
    let rowSize := rowDataSize w
    let fileSize := data.length % quint64Size
    if rowSize = 0 then none
    else
      let rows := fileSize / rowSize
      if fileSize % rowSize ≠ 0 then some ((rows + 1) % quint64Size) else some rows

/-- The search loop of `infileRowLimitDivisor`,
`for(divider = start; (rows / divider) > rowLimit; divider += 1);`
started at `divider`.  `none` is a division by zero, or a loop that has not
stopped after `fuel` tests of its condition. -/
def divisorSearch (rows rowLimit : Nat) : Nat → Nat → Option Nat
  | 0, _ => none
  | fuel + 1, divider =>
    if divider = 0 then none
    else if rows / divider > rowLimit then
      divisorSearch rows rowLimit fuel ((divider + 1) % quint64Size)
    else some divider

/-- The body of `Window::infileRowLimitDivisor` once `rowLimit` and `rows`
have been read.  The loop condition fails at the latest when `divider`
exceeds `rows`, hence `rows + 2` tests are always enough. -/
def rowLimitDivisor (rowLimit rows : Nat) (writeColNames : Bool) : Option Nat :=
  if rowLimit < rows ∧ rows > 0 ∧ rowLimit > 0 then
    let rows := if writeColNames then (rows + 1) % quint64Size else rows
    let step := (rowLimit + 1) % quint64Size
    if step = 0 then none
    else
      let start := rows / step
      divisorSearch rows rowLimit (rows + 2) start
  else some 1

/-- The function `Window::infileRowLimitDivisor`. -/
def infileRowLimitDivisor (w : Window) (disk : Disk) : Option Nat :=
  match infileNumberRows w disk with
  | none => none
  | some rows => rowLimitDivisor w.comboRowLimit rows w.checkBoxWriteColNames

/-- The row count that `infileRowLimitDivisor` divides: `rows`, or `rows + 1`
when the column names are written. -/
def dividedRows (rows : Nat) (writeColNames : Bool) : Nat :=
  if writeColNames then rows + 1 else rows

/-- The quotient `a / b` rounded up. -/
def ceilDiv (a b : Nat) : Nat := (a + b - 1) / b

/-! ## The column decoder -/

/-- The integer whose bytes, least significant first, are `bs`. -/
def leValue : List Byte → Nat
  | [] => 0
  | b :: bs => b.val + 256 * leValue bs

/-- The integer whose bytes, most significant first, are `bs`. -/
def beValue (bs : List Byte) : Nat :=
  bs.foldl (fun acc b => acc * 256 + b.val) 0

/-- The `n` low bytes of `v`, least significant first. -/
def leBytes : Nat → Nat → List Byte
  | 0, _ => []
  | n + 1, v => ⟨v % 256, Nat.mod_lt v (by decide)⟩ :: leBytes n (v / 256)

/-- The `n` low bytes of `v`, most significant first. -/
def beBytes (n v : Nat) : List Byte := (leBytes n v).reverse

/-- The union `raw2quint64` of `Window.h` on a little-endian host (the host of
the worked example above `csvOpenFiles`): the view `char bytes[8]`. -/
structure raw2quint64 where
  /-- The member `bytes`. -/
  bytes : List Byte
  /-- The array has 8 elements. -/
  size : bytes.length = 8

/-- The member `ui64` of the union: the 8 bytes read as one integer. -/
def raw2quint64.ui64 (raw : raw2quint64) : Nat := leValue raw.bytes

/-- The assignment `raw.ui64 = v`. -/
def raw2quint64.ofUi64 (v : Nat) : raw2quint64 where
  bytes := leBytes 8 v
  size := rfl

/-- The effect on `raw.bytes` of a read that delivered `data`: the first
`data.length` bytes are overwritten, the others keep what they held. -/
def raw2quint64.fill (raw : raw2quint64) (data : List Byte) : raw2quint64 where
  bytes := (data ++ raw.bytes.drop data.length).take 8
  size := by
    have h := raw.size
    simp only [List.length_take, List.length_append, List.length_drop]
    omega

/-- The function `qbswap` of QtEndian at `quint64`: the 8 bytes in reverse order. -/
def qbswap (v : Nat) : Nat := leValue (leBytes 8 v).reverse

/-- The statement
`if(byteSwap) raw.ui64 = qbswap(raw.ui64) >> ((8 - colSize[col]) << 3);`
of `csvProcessRow`. -/
def swapColumn (raw : raw2quint64) (colSize : Nat) (byteSwap : Bool) : raw2quint64 :=
  if byteSwap then raw2quint64.ofUi64 (qbswap raw.ui64 >>> ((8 - colSize) <<< 3)) else raw

/-- One column of `csvProcessRow` from the read to the decoded value: `data`
is what `infile.read(raw.bytes, colSize[col])` delivered. -/
def decodeColumn (raw : raw2quint64) (data : List Byte) (colSize : Nat) (byteSwap : Bool) :
    raw2quint64 :=
  swapColumn (raw.fill data) colSize byteSwap

/-! ## The voltage mapping -/

/-- Width in bits of the C++ type `int`. -/
def intBits : Nat := 32

/-- The value of an `int` result, kept in the range of `int`. -/
def wrapInt (x : Int) : Int := (x + 2 ^ (intBits - 1)) % 2 ^ intBits - 2 ^ (intBits - 1)

/-- The expression `a << n` on `int`; it is undefined when `n` is not smaller
than the width of `int`. -/
def shlInt (a : Int) (n : Nat) : Option Int :=
  if n < intBits then some (wrapInt (a * 2 ^ n)) else none

/-- The local `quint64 maxVal = (1 << (numBytes << 3)) -1;` of `rawIntToVoltage`. -/
def maxVal (numBytes : Nat) : Option Nat :=
  match shlInt 1 (numBytes <<< 3) with
  | none => none
  | some x => some (wrapInt (x - 1) % (quint64Size : Int)).toNat

/-- The returned expression `(value / (maxVal / range)) + vMin` of `rawIntToVoltage`. -/
def voltageExpr (value maxVal : Nat) (range vMin : ℚ) : ℚ :=
  ((value : ℚ) / ((maxVal : ℚ) / range)) + vMin

/-- The function `Window::rawIntToVoltage`; `none` when `maxVal` is undefined. -/
def rawIntToVoltage (value numBytes : Nat) (vMin vMax : ℚ) : Option ℚ :=
  let range := vMax - vMin
  match maxVal numBytes with
  | none => none
  | some maxVal => some (voltageExpr value maxVal range vMin)

/-- The mapping `toVoltage` as the specification words it:
`maxRaw = 2^(byteWidth*8) - 1` and the result `vMin + value * (vMax - vMin) / maxRaw`. -/
def toVoltage (value byteWidth : Nat) (vMin vMax : ℚ) : ℚ :=
  vMin + (value : ℚ) * (vMax - vMin) / ((2 : ℚ) ^ (byteWidth * 8) - 1)

/-! ## Files and the text stream -/

/-- One item put on the `QTextStream` of the output file. -/
inductive Tok where
  /-- A string, `ts << text`. -/
  | text (s : String)
  /-- A `quint64` printed in decimal, `ts << raw.ui64`. -/
  | integer (v : Nat)
  /-- A `double` printed with 15 significant digits; `none` is an undefined value. -/
  | real (v : Option ℚ)
  /-- The separator, `ts << ','`. -/
  | comma
  /-- The end of a line, `ts << endl`. -/
  | endl
  deriving DecidableEq

/-- Number of lines of a text: the lines ended by `endl`, and one more when
text follows the last `endl`. -/
def lineCount (ts : List Tok) : Nat :=
  ts.count Tok.endl + (if ts.getLast? = none ∨ ts.getLast? = some Tok.endl then 0 else 1)

/-- An input file open for reading. -/
structure QFile where
  /-- The bytes of the file. -/
  data : List Byte
  /-- The current position, `pos()`. -/
  pos : Nat
  /-- Offsets at which the device reports a read error. -/
  readError : Nat → Bool

/-- The function `QFile::atEnd`. -/
def QFile.atEnd (f : QFile) : Bool := decide (f.data.length ≤ f.pos)

/-- The function `QFile::read(char *, qint64 maxSize)`: `none` is the result
-1; otherwise the bytes delivered, at most `maxSize` and fewer at the end of
the file, and the file advanced past them. -/
def QFile.read (f : QFile) (maxSize : Nat) : Option (List Byte × QFile) :=
  if f.readError f.pos then none
  else
    let data := (f.data.drop f.pos).take maxSize
    some (data, { f with pos := f.pos + data.length })

/-- The function `QFile::seek`. -/
def QFile.seek (f : QFile) (pos : Nat) : QFile := { f with pos := pos }

/-- The function `Window::csvWriteColumnNames`, loop part: the names of the
columns up to the first hidden one, each followed by a comma. -/
def writeColumnNames (w : Window) : List Nat → Bool → List Tok → Bool × List Tok
  | [], retval, ts => (retval, ts)
  | index :: rest, retval, ts =>
    if w.dataComboHidden.getD index false then (retval, ts)
    else
      writeColumnNames w rest true
        (ts ++ [Tok.text (trimmed (w.dataComboName.getD index "")), Tok.comma])

/-- The function `Window::csvWriteColumnNames`: the line of column names; the
result tells whether a name was written. -/
def csvWriteColumnNames (w : Window) (ts : List Tok) : Bool × List Tok :=
  let r := writeColumnNames w (List.range w.spinColumns) false ts
  (r.1, r.2 ++ [Tok.endl])

/-- What `csvProcessRow` leaves behind. -/
structure RowResult where
  /-- The text stream. -/
  ts : List Tok
  /-- The input file. -/
  infile : QFile
  /-- Whether a read returned -1 ("Error reading data file."). -/
  readFailed : Bool

/-- The column loop of `csvProcessRow` over the remaining column indices. -/
def processColumns (w : Window) (colSize : List Nat) (byteSwap : Bool) (vMin vMax : ℚ) :
    List Nat → raw2quint64 → QFile → List Tok → RowResult
  | [], _, infile, ts => ⟨ts ++ [Tok.endl], infile, false⟩
  | col :: rest, raw, infile, ts =>
    match infile.read (colSize.getD col 0) with
    | none => ⟨ts, infile, true⟩
    | some (data, infile) =>
      let raw := decodeColumn raw data (colSize.getD col 0) byteSwap
      let ts :=
        if w.dataCheckBox.getD col false then ts ++ [Tok.integer raw.ui64, Tok.comma]
        else ts ++ [Tok.real (rawIntToVoltage raw.ui64 (colSize.getD col 0) vMin vMax), Tok.comma]
      processColumns w colSize byteSwap vMin vMax rest raw infile ts

/-- The function `Window::csvProcessRow`: `raw.ui64 = 0`, then every column
in turn, then the end of the line. -/
def csvProcessRow (w : Window) (ts : List Tok) (infile : QFile) (colCount : Nat)
    (colSize : List Nat) (byteSwap : Bool) (vMin vMax : ℚ) : RowResult :=
  processColumns w colSize byteSwap vMin vMax (List.range colCount) (raw2quint64.ofUi64 0)
    infile ts

/-! ## The conversion -/

/-- Opening a file name with `QIODevice::WriteOnly`: the file is created or
emptied. -/
def Disk.truncate (disk : Disk) (fileName : String) : Disk :=
  { disk with
    content := fun path =>
      if path = disk.canonicalFilePath fileName then some [] else disk.content path }

/-- The function `QFile::remove`. -/
def Disk.remove (disk : Disk) (fileName : String) : Disk :=
  { disk with
    content := fun path =>
      if path = disk.canonicalFilePath fileName then none else disk.content path }

/-- What the program meets outside its window: the file system, the answers
of `progress.wasCanceled()` (by the value of `rowsOutput` at the check) and the
offsets at which reading the input fails. -/
structure Env where
  /-- The file system when the conversion starts. -/
  disk : Disk
  /-- The answer of `progress.wasCanceled()`. -/
  wasCanceled : Nat → Bool
  /-- The offsets of the input file at which a read returns -1. -/
  readError : Nat → Bool

/-- What `csvOpenFiles` leaves behind. -/
structure Opened where
  /-- The returned `errorState`. -/
  errorState : Bool
  /-- The text put on the status bar, if any. -/
  statusBarMessage : Option String
  /-- The input file, open at position 0 when it could be opened. -/
  infile : QFile
  /-- The file system afterwards. -/
  disk : Disk

/-- The function `Window::csvOpenFiles`: the input file is opened for reading,
then the output file for writing, then their canonical paths are compared. -/
def csvOpenFiles (w : Window) (env : Env) : Opened :=
  match env.disk.openRead w.comboInfile with
  | none => ⟨true, some "Cannot open data file for reading.", ⟨[], 0, env.readError⟩, env.disk⟩
  | some data =>
    if env.disk.writable (env.disk.canonicalFilePath w.comboOutfile) then
      let disk := env.disk.truncate w.comboOutfile
      if disk.canonicalFilePath w.comboInfile = disk.canonicalFilePath w.comboOutfile then
        ⟨true, some "Input and output files must not be the same file!",
          ⟨data, 0, env.readError⟩, disk⟩
      else ⟨false, none, ⟨data, 0, env.readError⟩, disk⟩
    else
      ⟨true, some "Cannot open output file for writing.", ⟨data, 0, env.readError⟩, env.disk⟩

/-- The locals of `dataToCsv` that stay fixed during its loop. -/
structure Locals where
  /-- The local `colCount`. -/
  colCount : Nat
  /-- The local `rowSize`. -/
  rowSize : Nat
  /-- The local `rowLimit`. -/
  rowLimit : Nat
  /-- The local `divCount`. -/
  divCount : Nat
  /-- The local `byteSwap`. -/
  byteSwap : Bool
  /-- The local `vMin`. -/
  vMin : ℚ
  /-- The local `vMax`. -/
  vMax : ℚ
  /-- The local `colSize`. -/
  colSize : List Nat

/-- What the loop of `dataToCsv` changes. -/
structure RunState where
  /-- The input file. -/
  infile : QFile
  /-- The text stream of the output file. -/
  ts : List Tok
  /-- The local `rowsOutput`. -/
  rowsOutput : Nat
  /-- The local `cancelled`. -/
  cancelled : Bool
  /-- Whether `outfile.remove()` was called. -/
  outfileRemoved : Bool
  /-- The text on the status bar. -/
  statusBarMessage : String

/-- How one pass through the loop of `dataToCsv` ends. -/
inductive Pass where
  /-- The loop is left (its condition failed, or a `break`). -/
  | exit (s : RunState)
  /-- The body ran to its end. -/
  | again (s : RunState)

/-- One pass through `while(!infile.atEnd()) { ... }` of `dataToCsv`. -/
def loopPass (w : Window) (wasCanceled : Nat → Bool) (l : Locals) (s : RunState) : Pass :=
  if s.infile.atEnd then Pass.exit s
  else if l.rowLimit > 0 ∧ s.rowsOutput ≥ l.rowLimit then Pass.exit s
  else if s.rowsOutput % 1024 = 0 ∧ wasCanceled s.rowsOutput = true then
    Pass.exit { s with
      cancelled := true
      statusBarMessage := "Processing cancelled."
      outfileRemoved := true }
  else
    let r := csvProcessRow w s.ts s.infile l.colCount l.colSize l.byteSwap l.vMin l.vMax
    let infile :=
      if l.divCount > 1 then
        r.infile.seek ((r.infile.pos + (l.rowSize * (l.divCount - 1)) % quint64Size) % quint64Size)
      else r.infile
    Pass.again { s with
      infile := infile
      ts := r.ts
      rowsOutput := (s.rowsOutput + 1) % quint64Size
      statusBarMessage := if r.readFailed then "Error reading data file." else s.statusBarMessage }

/-- The state after `n` complete passes of the loop; `none` when the loop was
left before. -/
def afterPasses (w : Window) (wasCanceled : Nat → Bool) (l : Locals) : Nat → RunState → Option RunState
  | 0, s => some s
  | n + 1, s =>
    match loopPass w wasCanceled l s with
    | Pass.exit _ => none
    | Pass.again s => afterPasses w wasCanceled l n s

/-- The loop of `dataToCsv`, run for at most `fuel` passes; `none` when it is
still running then. -/
def runLoop (w : Window) (wasCanceled : Nat → Bool) (l : Locals) : Nat → RunState → Option RunState
  | 0, _ => none
  | fuel + 1, s =>
    match loopPass w wasCanceled l s with
    | Pass.exit s => some s
    | Pass.again s => runLoop w wasCanceled l fuel s

/-- What a call of `dataToCsv` leaves behind. -/
structure Outcome where
  /-- The last text that `dataToCsv` put on the status bar. -/
  statusBarMessage : String
  /-- The file system afterwards; the output file is listed with the content it
  had when it was opened, and `ts` is what was written to it since. -/
  disk : Disk
  /-- Everything put on the text stream of the output file, in order. -/
  ts : List Tok
  /-- The final value of `rowsOutput`. -/
  rowsOutput : Nat
  /-- The final value of `cancelled`. -/
  cancelled : Bool

/-- The locals of `dataToCsv` as it sets them before its loop. -/
def dataToCsvLocals (w : Window) (divCount : Nat) : Locals where
  colCount := w.spinColumns
  rowSize := rowDataSize w
  rowLimit := w.comboRowLimit
  divCount := divCount
  byteSwap := w.checkBoxEndian
  vMin := w.minVoltage
  vMax := w.maxVoltage
  colSize := (List.range w.spinColumns).map (fun index => w.dataSpinNumBytes.getD index 0)

/-- The state of `dataToCsv` when it enters its loop: the line of column names
is written if asked for, and counted if it holds a name. -/
def dataToCsvStart (w : Window) (infile : QFile) : RunState :=
  let names := csvWriteColumnNames w []
  { infile := infile
    ts := if w.checkBoxWriteColNames then names.2 else []
    rowsOutput := if w.checkBoxWriteColNames ∧ names.1 = true then 1 else 0
    cancelled := false
    outfileRemoved := false
    statusBarMessage := "Processing data file..." }

/-- The slot `Window::dataToCsv`, its loop run for at most `fuel` passes.
`none` is an undefined divisor or a loop that is still running after `fuel`
passes.  (The progress dialog and `openFileWithAssociatedProgram` are left
out: they do not act on the files or on the locals.) -/
def dataToCsv (w : Window) (env : Env) (fuel : Nat) : Option Outcome :=
  let opened := csvOpenFiles w env
  if opened.errorState then
    some ⟨opened.statusBarMessage.getD "", opened.disk, [], 0, false⟩
  else
    match infileRowLimitDivisor w opened.disk with
    | none => none
    | some divCount =>
      match runLoop w env.wasCanceled (dataToCsvLocals w divCount) fuel
          (dataToCsvStart w opened.infile) with
      | none => none
      | some s =>
        some
          { statusBarMessage := if s.cancelled then s.statusBarMessage else "Processing complete."
            disk := if s.outfileRemoved then opened.disk.remove w.comboOutfile else opened.disk
            ts := s.ts
            rowsOutput := s.rowsOutput
            cancelled := s.cancelled }

/-! ## The text of a conversion, record by record -/

/-- The record number `index` of the input: the `rowSize` bytes from offset
`index * rowSize` on, fewer at the end of the file. -/
def recordAt (data : List Byte) (rowSize index : Nat) : List Byte :=
  (data.drop (index * rowSize)).take rowSize

/-- The line that `csvProcessRow` writes for one record: the function run on a
file that holds this record and nothing else, read without error. -/
def rowText (w : Window) (record : List Byte) : List Tok :=
  (csvProcessRow w [] ⟨record, 0, fun _ => false⟩ w.spinColumns
    ((List.range w.spinColumns).map (fun index => w.dataSpinNumBytes.getD index 0))
    w.checkBoxEndian w.minVoltage w.maxVoltage).ts

/-- The lines of the first `n` records retained under the divisor `d`: the
records number 0, `d`, `2 * d` and so on, in this order. -/
def rowsText (w : Window) (data : List Byte) (d : Nat) : Nat → List Tok
  | 0 => []
  | n + 1 => rowsText w data d n ++ rowText w (recordAt data (rowDataSize w) (n * d))

/-! ## The voltage range -/

/-- The constant `minVoltageDifference` of `Window.h`. -/
def minVoltageDifference : ℚ := 1

/-- The values of the spin boxes `minVoltage` and `maxVoltage`. -/
structure VoltageBoxes where
  /-- The value `minVoltage->value()`. -/
  minVoltage : ℚ
  /-- The value `maxVoltage->value()`. -/
  maxVoltage : ℚ
  deriving DecidableEq

/-- The value a spin box with `setRange(-1000.0, 1000.0)` takes when it is set
to `v`. -/
def clampVoltage (v : ℚ) : ℚ := max (-1000) (min v 1000)

/-- A pending signal `valueChanged(double)` of one of the two spin boxes. -/
inductive VoltageSignal where
  /-- The signal of `minVoltage`, connected to `minVoltageChanged`. -/
  | minChanged (newValue : ℚ)
  /-- The signal of `maxVoltage`, connected to `maxVoltageChanged`. -/
  | maxChanged (newValue : ℚ)

/-- The slots `Window::minVoltageChanged` and `Window::maxVoltageChanged` run
on a signal, together with the slots they set off: `setValue` clamps the value
to the range of the spin box and emits `valueChanged` only when the value of
the box changes.  `none` when the slots are still running after `fuel` calls. -/
def voltageChanged : Nat → VoltageSignal → VoltageBoxes → Option VoltageBoxes
  | 0, _, _ => none
  | fuel + 1, VoltageSignal.minChanged newValue, boxes =>
    if newValue > boxes.maxVoltage - minVoltageDifference then
      let value := clampVoltage (newValue + minVoltageDifference)
      if value = boxes.maxVoltage then some boxes
      else voltageChanged fuel (VoltageSignal.maxChanged value) { boxes with maxVoltage := value }
    else some boxes
  | fuel + 1, VoltageSignal.maxChanged newValue, boxes =>
    if newValue < boxes.minVoltage + minVoltageDifference then
      let value := clampVoltage (newValue - minVoltageDifference)
      if value = boxes.minVoltage then some boxes
      else voltageChanged fuel (VoltageSignal.minChanged value) { boxes with minVoltage := value }
    else some boxes

/-- The user sets the spin box `minVoltage` to `v`. -/
def setMinVoltage (fuel : Nat) (v : ℚ) (boxes : VoltageBoxes) : Option VoltageBoxes :=
  let value := clampVoltage v
  if value = boxes.minVoltage then some boxes
  else voltageChanged fuel (VoltageSignal.minChanged value) { boxes with minVoltage := value }

/-- The user sets the spin box `maxVoltage` to `v`. -/
def setMaxVoltage (fuel : Nat) (v : ℚ) (boxes : VoltageBoxes) : Option VoltageBoxes :=
  let value := clampVoltage v
  if value = boxes.maxVoltage then some boxes
  else voltageChanged fuel (VoltageSignal.maxChanged value) { boxes with maxVoltage := value }

/-! ## The specified stride -/

/-- The search for the smallest `d` from `d` upwards such that `totalRows / d`
rounded up is at most `rowCap`, within `fuel` candidates. -/
def strideSearch (totalRows rowCap : Nat) : Nat → Nat → Nat
  | 0, d => d
  | fuel + 1, d =>
    if ceilDiv totalRows d ≤ rowCap then d else strideSearch totalRows rowCap fuel (d + 1)

/-- The operation `RowDecimator.stride` as the specification words it: 1 if
`rowCap == 0` or `totalRows <= rowCap`, otherwise the smallest `d ≥ 1` such
that `totalRows / d` rounded up is at most `rowCap` (`d = totalRows` is such
a `d`, so the candidates 1 to `totalRows` are enough). -/
def stride (totalRows rowCap : Nat) : Nat :=
  if rowCap = 0 ∨ totalRows ≤ rowCap then 1
  else strideSearch totalRows rowCap totalRows 1

/-! ## Reading a number from a text -/

/-- The function `QChar::isDigit` on texts whose decimal digits are the
characters `0` to `9`.  (The decimal digits of other scripts, which
`QString::toULongLong` converts or rejects depending on the locale, are outside
the model.) -/
def isDigit (c : Char) : Bool := c.isDigit

/-- The number that a string of the digits `0` to `9` denotes. -/
def digitsValue (digits : List Char) : Nat :=
  digits.foldl (fun value c => value * 10 + (c.toNat - '0'.toNat)) 0

/-- The function `QString::toULongLong` on a string of the digits `0` to `9`,
the only strings `getUint64` passes to it: the number denoted, or 0 when the
conversion fails, as it does for the empty string and for a number that does
not fit a `quint64`. -/
def toULongLong (digits : List Char) : Nat :=
  if digitsValue digits < quint64Size then digitsValue digits else 0

/-- The loop `for(index = 0; index < limit; ++index) if(!text.at(index).isDigit()) break;`
of `getUint64` from `index` on; it makes at most `limit - index` passes, for
which `fuel` stands. -/
def scanDigits (text : List Char) (limit : Nat) : Nat → Nat → Nat
  | 0, index => index
  | fuel + 1, index =>
    if index < limit then
      if !isDigit (text.getD index ' ') then index
      else scanDigits text limit fuel (index + 1)
    else index

/-- The function `Window::getUint64`; `maxDigits` is a `quint8`. -/
def getUint64 (text : String) (maxDigits : Nat) : Nat :=
  let limit := if text.length > maxDigits then maxDigits else text.length
  let index := scanDigits text.data limit limit 0
  toULongLong (text.data.take index)

/-- The default value of the parameter `maxDigits` of `getUint64` in `Window.h`. -/
def defaultMaxDigits : Nat := 19

/-- A disk holding one input file `in.bin` with the given bytes; every name is
its own canonical path and every file may be written. -/
def diskWith (data : List Byte) : Disk where
  canonicalFilePath := fun fileName => fileName
  content := fun path => if path = "in.bin" then some data else none
  writable := fun _ => true

/-- A window with one counter column of one byte, a row limit of 50 and no
line of column names. -/
def limit50 : Window where
  comboInfile := "in.bin"
  comboOutfile := "out.csv"
  comboRowLimit := 50
  spinColumns := 1
  dataSpinNumBytes := [1]
  dataCheckBox := [true]
  dataComboName := ["count"]
  dataComboHidden := [false]
  checkBoxWriteColNames := false
  checkBoxEndian := true
  minVoltage := 0
  maxVoltage := 5

/-- The window `limit50` with the line of column names switched on. -/
def limit50Names : Window := { limit50 with checkBoxWriteColNames := true }

/-- A window with a counter column of two bytes followed by a counter column
of one byte, no row limit, no byte swapping. -/
def twoCounters : Window where
  comboInfile := "in.bin"
  comboOutfile := "out.csv"
  comboRowLimit := 0
  spinColumns := 2
  dataSpinNumBytes := [2, 1]
  dataCheckBox := [true, true]
  dataComboName := ["wide", "narrow"]
  dataComboHidden := [false, false]
  checkBoxWriteColNames := false
  checkBoxEndian := false
  minVoltage := 0
  maxVoltage := 5

/-- An environment whose disk holds `in.bin` with the given bytes, where nobody
cancels and no read fails. -/
def quietEnv (data : List Byte) : Env where
  disk := diskWith data
  wasCanceled := fun _ => false
  readError := fun _ => false

/-- A window with two counter columns of one byte each, no row limit, no
line of column names, no byte swapping. -/
def twoBytes : Window where
  comboInfile := "in.bin"
  comboOutfile := "out.csv"
  comboRowLimit := 0
  spinColumns := 2
  dataSpinNumBytes := [1, 1]
  dataCheckBox := [true, true]
  dataComboName := ["first", "second"]
  dataComboHidden := [false, false]
  checkBoxWriteColNames := false
  checkBoxEndian := false
  minVoltage := 0
  maxVoltage := 5

/-- The window `twoBytes` with byte swapping switched on. -/
def twoBytesSwapped : Window := { twoBytes with checkBoxEndian := true }

/-- The window `twoBytes` with a row limit of 2. -/
def twoBytesLimit2 : Window := { twoBytes with comboRowLimit := 2 }

/-- The window `limit50` with the output written over the input file. -/
def sameFile : Window := { limit50 with comboOutfile := "in.bin" }

/-- The window `limit50` with a row limit of 65536. -/
def limit65536 : Window := { limit50 with comboRowLimit := 65536 }

/-- The window `limit65536` with the line of column names switched on. -/
def limit65536Names : Window := { limit65536 with checkBoxWriteColNames := true }

/-- The environment `quietEnv` with a device that fails every read that starts
at offset 1 of the input file. -/
def failingEnv (data : List Byte) : Env := { quietEnv data with readError := fun pos => pos == 1 }

/-- The environment `quietEnv` with a user who has pressed "Cancel" whenever
the progress dialog is asked. -/
def cancellingEnv (data : List Byte) : Env := { quietEnv data with wasCanceled := fun _ => true }

/-- The window `limit50` with a row limit of 2. -/
def limit2 : Window := { limit50 with comboRowLimit := 2 }

/-- The window `limit50Names` with a row limit of 1. -/
def limit1Names : Window := { limit50Names with comboRowLimit := 1 }

/-! ## Arithmetic of rounded quotients -/

/-- The rounded-up quotient is at most `n` exactly when `a ≤ n * b`. -/
theorem ceilDiv_le_iff (a b n : Nat) (hb : 0 < b) : ceilDiv a b ≤ n ↔ a ≤ n * b := by
  unfold ceilDiv
  rw [← Nat.lt_succ_iff, Nat.div_lt_iff_lt_mul hb, Nat.succ_mul]
  omega

/-- The rounded-up quotient exceeds `n` exactly when `n * b < a`. -/
theorem lt_ceilDiv_iff (a b n : Nat) (hb : 0 < b) : n < ceilDiv a b ↔ n * b < a := by
  rw [← not_le, ceilDiv_le_iff a b n hb, not_le]

/-- The function `ceilDiv` is the ceiling of the rational quotient. -/
theorem ceilDiv_eq_ceil (a b : Nat) (hb : 0 < b) : ceilDiv a b = ⌈(a : ℚ) / (b : ℚ)⌉₊ := by
  apply eq_of_forall_ge_iff
  intro n
  have hb' : (0 : ℚ) < (b : ℚ) := by exact_mod_cast hb
  rw [ceilDiv_le_iff a b n hb, Nat.ceil_le, div_le_iff₀ hb']
  exact_mod_cast Iff.rfl

theorem div_le_ceilDiv (a b : Nat) : a / b ≤ ceilDiv a b := by
  unfold ceilDiv
  rcases Nat.eq_zero_or_pos b with hb | hb
  · subst hb; simp
  · exact Nat.div_le_div_right (by omega)

theorem ceilDiv_le_div_succ (a b : Nat) (hb : 0 < b) : ceilDiv a b ≤ a / b + 1 := by
  rw [ceilDiv_le_iff a b _ hb]
  exact Nat.le_of_lt ((Nat.div_lt_iff_lt_mul hb).1 (Nat.lt_succ_self _))

theorem ceilDiv_eq_div_add (a b : Nat) (hb : 0 < b) :
    ceilDiv a b = a / b + (if a % b = 0 then 0 else 1) := by
  have hm := Nat.div_add_mod a b
  have hc : b * (a / b) = a / b * b := Nat.mul_comm _ _
  by_cases h : a % b = 0
  · rw [if_pos h, Nat.add_zero]
    apply Nat.le_antisymm _ (div_le_ceilDiv a b)
    rw [ceilDiv_le_iff a b _ hb]
    omega
  · rw [if_neg h]
    apply Nat.le_antisymm (ceilDiv_le_div_succ a b hb)
    apply Nat.succ_le_of_lt
    rw [lt_ceilDiv_iff a b _ hb]
    omega

/-- The search loop, started at `rows / (rowLimit + 1)`, stops after one increment. -/
theorem divisorSearch_start (rows rowLimit fuel : Nat) (hL : 0 < rowLimit) (hlt : rowLimit < rows)
    (hR : rows < quint64Size) :
    divisorSearch rows rowLimit (fuel + 2) (rows / (rowLimit + 1)) =
      some (rows / (rowLimit + 1) + 1) := by
  have hpos : 0 < rowLimit + 1 := Nat.succ_pos _
  have hstart : 1 ≤ rows / (rowLimit + 1) := by
    rw [Nat.le_div_iff_mul_le hpos]; omega
  have hlt' : rows / (rowLimit + 1) < rows := Nat.div_lt_self (by omega) (by omega)
  have h1 : rowLimit < rows / (rows / (rowLimit + 1)) := by
    apply Nat.lt_of_succ_le
    rw [Nat.le_div_iff_mul_le (by omega)]
    rw [Nat.mul_comm]
    exact Nat.div_mul_le_self rows (rowLimit + 1)
  have h2 : ¬ rows / (rows / (rowLimit + 1) + 1) > rowLimit := by
    rw [gt_iff_lt, not_lt, ← Nat.lt_succ_iff, Nat.div_lt_iff_lt_mul (Nat.succ_pos _)]
    rw [Nat.mul_comm]
    exact (Nat.div_lt_iff_lt_mul hpos).1 (Nat.lt_succ_self _)
  have hmod : (rows / (rowLimit + 1) + 1) % quint64Size = rows / (rowLimit + 1) + 1 :=
    Nat.mod_eq_of_lt (by omega)
  rw [divisorSearch, if_neg (by omega), if_pos h1, hmod, divisorSearch,
    if_neg (Nat.succ_ne_zero _), if_neg h2]

/-- Where decimation applies, the divisor is `R / (rowLimit + 1) + 1` for the
divided row count `R`. -/
theorem rowLimitDivisor_eq (rowLimit rows : Nat) (writeColNames : Bool) (hL : 0 < rowLimit)
    (hlt : rowLimit < rows) (hR : rows + 1 < quint64Size) :
    rowLimitDivisor rowLimit rows writeColNames =
      some (dividedRows rows writeColNames / (rowLimit + 1) + 1) := by
  have hcond : rowLimit < rows ∧ rows > 0 ∧ rowLimit > 0 := ⟨hlt, by omega, hL⟩
  have hstep : (rowLimit + 1) % quint64Size = rowLimit + 1 := Nat.mod_eq_of_lt (by omega)
  have hrows : (if writeColNames = true then (rows + 1) % quint64Size else rows) =
      dividedRows rows writeColNames := by
    unfold dividedRows
    rw [Nat.mod_eq_of_lt hR]
  have hD : rowLimit < dividedRows rows writeColNames ∧
      dividedRows rows writeColNames < quint64Size := by
    unfold dividedRows; split <;> omega
  unfold rowLimitDivisor
  rw [if_pos hcond]
  simp only [hstep, hrows, if_neg (Nat.succ_ne_zero rowLimit)]
  exact divisorSearch_start _ _ _ hL hD.1 hD.2

/-- Without a row limit, or with a limit not below the row count, the divisor is 1. -/
theorem rowLimitDivisor_eq_one (rowLimit rows : Nat) (writeColNames : Bool)
    (h : rowLimit = 0 ∨ rows ≤ rowLimit) : rowLimitDivisor rowLimit rows writeColNames = some 1 := by
  unfold rowLimitDivisor
  rw [if_neg]
  omega

/-! ## The row-limit divisor -/

/-- C1 as stated fails: with 201 rows, a row limit of 50 and no line of column
names the divisor is 4, and 201 / 4 rounded up is 51, above the limit. -/
theorem infileRowLimitDivisor_ceil_exceeds :
    infileNumberRows limit50 (diskWith (List.replicate 201 0)) = some 201 ∧
    0 < limit50.comboRowLimit ∧ limit50.comboRowLimit < 201 ∧
    infileRowLimitDivisor limit50 (diskWith (List.replicate 201 0)) = some 4 ∧
    dividedRows 201 limit50.checkBoxWriteColNames = 201 ∧
    ¬ ceilDiv 201 4 ≤ limit50.comboRowLimit ∧
    ¬ ⌈((201 : ℕ) : ℚ) / ((4 : ℕ) : ℚ)⌉₊ ≤ limit50.comboRowLimit := by
  refine ⟨by decide, by decide, by decide, by decide, by decide, by decide, ?_⟩
  rw [← ceilDiv_eq_ceil 201 4 (by decide)]
  decide

/-- C1 (amended): for a row count `rows` and a row limit with
`0 < rowLimit < rows`, `infileRowLimitDivisor` returns a divisor `d ≥ 1` such
that the divided row count (`rows`, or `rows + 1` with the line of column
names) satisfies `R / d ≤ rowLimit` in integer division; rounded up the
quotient is at most `rowLimit + 1`. -/
theorem infileRowLimitDivisor_within_limit (w : Window) (disk : Disk) (rows : Nat)
    (hrows : infileNumberRows w disk = some rows) (hpos : 0 < w.comboRowLimit)
    (hlt : w.comboRowLimit < rows) (hsize : rows + 1 < quint64Size) :
    ∃ d, infileRowLimitDivisor w disk = some d ∧ 1 ≤ d ∧
      dividedRows rows w.checkBoxWriteColNames / d ≤ w.comboRowLimit ∧
      ceilDiv (dividedRows rows w.checkBoxWriteColNames) d ≤ w.comboRowLimit + 1 := by
  refine ⟨dividedRows rows w.checkBoxWriteColNames / (w.comboRowLimit + 1) + 1, ?_,
    Nat.succ_pos _, ?_, ?_⟩
  · unfold infileRowLimitDivisor
    rw [hrows]
    exact rowLimitDivisor_eq _ _ _ hpos hlt hsize
  · rw [← Nat.lt_succ_iff, Nat.div_lt_iff_lt_mul (Nat.succ_pos _), Nat.mul_comm]
    exact (Nat.div_lt_iff_lt_mul (Nat.succ_pos _)).1 (Nat.lt_succ_self _)
  · refine Nat.le_trans (ceilDiv_le_div_succ _ _ (Nat.succ_pos _)) (Nat.succ_le_succ ?_)
    rw [← Nat.lt_succ_iff, Nat.div_lt_iff_lt_mul (Nat.succ_pos _), Nat.mul_comm]
    exact (Nat.div_lt_iff_lt_mul (Nat.succ_pos _)).1 (Nat.lt_succ_self _)

/-- Witness for C1 (amended): 201 rows, limit 50, with the line of column
names. -/
theorem infileRowLimitDivisor_within_limit_witness :
    ∃ d, infileRowLimitDivisor limit50Names (diskWith (List.replicate 201 0)) = some d ∧ 1 ≤ d ∧
      dividedRows 201 limit50Names.checkBoxWriteColNames / d ≤ limit50Names.comboRowLimit ∧
      ceilDiv (dividedRows 201 limit50Names.checkBoxWriteColNames) d ≤
        limit50Names.comboRowLimit + 1 :=
  infileRowLimitDivisor_within_limit limit50Names (diskWith (List.replicate 201 0)) 201
    (by decide) (by decide) (by decide) (by decide)

/-- C2: for `0 < rowLimit < rows` the divisor `d` returned by
`infileRowLimitDivisor` is minimal: for `d > 1` the row count divided by
`d - 1`, rounded up, exceeds the limit, and so it does for every divisor from 1
to `d - 1`, both for the row count that is divided (`rows + 1` with the line
of column names) and for `rows` itself. -/
theorem infileRowLimitDivisor_minimal (w : Window) (disk : Disk) (rows : Nat)
    (hrows : infileNumberRows w disk = some rows) (hpos : 0 < w.comboRowLimit)
    (hlt : w.comboRowLimit < rows) (hsize : rows + 1 < quint64Size) :
    ∃ d, infileRowLimitDivisor w disk = some d ∧
      (1 < d →
        w.comboRowLimit < ceilDiv (dividedRows rows w.checkBoxWriteColNames) (d - 1) ∧
        w.comboRowLimit < ceilDiv rows (d - 1)) ∧
      ∀ k, 1 ≤ k → k < d →
        w.comboRowLimit < ceilDiv (dividedRows rows w.checkBoxWriteColNames) k ∧
        w.comboRowLimit < ceilDiv rows k := by
  have key : ∀ k, 1 ≤ k →
      k < dividedRows rows w.checkBoxWriteColNames / (w.comboRowLimit + 1) + 1 →
      w.comboRowLimit < ceilDiv (dividedRows rows w.checkBoxWriteColNames) k ∧
      w.comboRowLimit < ceilDiv rows k := by
    intro k hk hkd
    have hks : k ≤ dividedRows rows w.checkBoxWriteColNames / (w.comboRowLimit + 1) :=
      Nat.lt_succ_iff.1 hkd
    have hmul : k * (w.comboRowLimit + 1) ≤ dividedRows rows w.checkBoxWriteColNames :=
      (Nat.le_div_iff_mul_le (Nat.succ_pos _)).1 hks
    have hexp : k * (w.comboRowLimit + 1) = w.comboRowLimit * k + k := by
      rw [Nat.mul_succ, Nat.mul_comm]
    rw [lt_ceilDiv_iff _ _ _ hk, lt_ceilDiv_iff _ _ _ hk]
    have hR : dividedRows rows w.checkBoxWriteColNames ≤ rows + 1 := by
      unfold dividedRows; split <;> omega
    rcases Nat.eq_or_lt_of_le hk with h1 | h1
    · subst h1
      have hR' : rows ≤ dividedRows rows w.checkBoxWriteColNames := by
        unfold dividedRows; split <;> omega
      omega
    · omega
  refine ⟨dividedRows rows w.checkBoxWriteColNames / (w.comboRowLimit + 1) + 1, ?_, ?_, key⟩
  · unfold infileRowLimitDivisor
    rw [hrows]
    exact rowLimitDivisor_eq _ _ _ hpos hlt hsize
  · intro hd
    exact key _ (by omega) (by omega)

/-- Witness for C2: 201 rows, limit 50. -/
theorem infileRowLimitDivisor_minimal_witness :
    ∃ d, infileRowLimitDivisor limit50 (diskWith (List.replicate 201 0)) = some d ∧
      (1 < d →
        limit50.comboRowLimit < ceilDiv (dividedRows 201 limit50.checkBoxWriteColNames) (d - 1) ∧
        limit50.comboRowLimit < ceilDiv 201 (d - 1)) ∧
      ∀ k, 1 ≤ k → k < d →
        limit50.comboRowLimit < ceilDiv (dividedRows 201 limit50.checkBoxWriteColNames) k ∧
        limit50.comboRowLimit < ceilDiv 201 k :=
  infileRowLimitDivisor_minimal limit50 (diskWith (List.replicate 201 0)) 201
    (by decide) (by decide) (by decide) (by decide)

/-- C3: `infileRowLimitDivisor` returns 1 when the row limit is 0, and when
the row limit is at least the row count. -/
theorem infileRowLimitDivisor_no_decimation (w : Window) (disk : Disk) (rows : Nat)
    (hrows : infileNumberRows w disk = some rows)
    (h : w.comboRowLimit = 0 ∨ rows ≤ w.comboRowLimit) :
    infileRowLimitDivisor w disk = some 1 := by
  unfold infileRowLimitDivisor
  rw [hrows]
  exact rowLimitDivisor_eq_one _ _ _ h

/-- Witness for C3: 50 rows under a limit of 50. -/
theorem infileRowLimitDivisor_no_decimation_witness :
    infileRowLimitDivisor limit50Names (diskWith (List.replicate 50 0)) = some 1 :=
  infileRowLimitDivisor_no_decimation limit50Names (diskWith (List.replicate 50 0)) 50
    (by decide) (Or.inr (by decide))

/-! ## The row count -/

/-- C5: for an input that can be opened, of `fileSize` bytes, and a record
size `rowSize ≥ 1`, `infileNumberRows` returns `fileSize / rowSize` rounded up:
`fileSize / rowSize` when the size is a multiple of `rowSize`, one more
otherwise. -/
theorem infileNumberRows_eq_ceilDiv (w : Window) (disk : Disk) (data : List Byte)
    (hopen : disk.openRead (trimmed w.comboInfile) = some data)
    (hsize : 1 ≤ rowDataSize w) (hlen : data.length < quint64Size) :
    infileNumberRows w disk = some (ceilDiv data.length (rowDataSize w)) ∧
    ceilDiv data.length (rowDataSize w) =
      data.length / rowDataSize w + (if data.length % rowDataSize w = 0 then 0 else 1) ∧
    ceilDiv data.length (rowDataSize w) = ⌈(data.length : ℚ) / (rowDataSize w : ℚ)⌉₊ := by
  have hmod : data.length % quint64Size = data.length := Nat.mod_eq_of_lt hlen
  have hne : rowDataSize w ≠ 0 := by omega
  refine ⟨?_, ceilDiv_eq_div_add _ _ hsize, ceilDiv_eq_ceil _ _ hsize⟩
  unfold infileNumberRows
  rw [hopen]
  simp only [hmod, if_neg hne]
  rw [ceilDiv_eq_div_add _ _ hsize]
  by_cases h0 : data.length % rowDataSize w = 0
  · simp [h0]
  · have hle : data.length / rowDataSize w + 1 < quint64Size := by
      have h1 := Nat.div_add_mod data.length (rowDataSize w)
      have h2 : data.length / rowDataSize w ≤ rowDataSize w * (data.length / rowDataSize w) :=
        Nat.le_mul_of_pos_left _ hsize
      omega
    simp [h0, Nat.mod_eq_of_lt hle]

/-- Witness for C5: 7 bytes in records of 3 bytes. -/
theorem infileNumberRows_eq_ceilDiv_witness :
    infileNumberRows twoCounters (diskWith [1, 2, 3, 4, 5, 6, 7]) =
      some (ceilDiv [1, 2, 3, 4, 5, 6, (7 : Byte)].length (rowDataSize twoCounters)) ∧
    ceilDiv [1, 2, 3, 4, 5, 6, (7 : Byte)].length (rowDataSize twoCounters) =
      [1, 2, 3, 4, 5, 6, (7 : Byte)].length / rowDataSize twoCounters +
        (if [1, 2, 3, 4, 5, 6, (7 : Byte)].length % rowDataSize twoCounters = 0 then 0 else 1) ∧
    ceilDiv [1, 2, 3, 4, 5, 6, (7 : Byte)].length (rowDataSize twoCounters) =
      ⌈([1, 2, 3, 4, 5, 6, (7 : Byte)].length : ℚ) / (rowDataSize twoCounters : ℚ)⌉₊ :=
  infileNumberRows_eq_ceilDiv twoCounters (diskWith [1, 2, 3, 4, 5, 6, 7]) [1, 2, 3, 4, 5, 6, 7]
    (by decide) (by decide) (by decide)


/-! ## Byte order -/

theorem leValue_nil : leValue [] = 0 := rfl

theorem leValue_cons (b : Byte) (bs : List Byte) : leValue (b :: bs) = b.val + 256 * leValue bs :=
  rfl

/-- The little-endian value of a concatenation. -/
theorem leValue_append (xs ys : List Byte) :
    leValue (xs ++ ys) = leValue xs + 256 ^ xs.length * leValue ys := by
  induction xs with
  | nil => simp [leValue_nil]
  | cons b bs ih =>
    rw [List.cons_append, leValue_cons, leValue_cons, ih, List.length_cons, Nat.pow_succ]
    ring

theorem leValue_lt (xs : List Byte) : leValue xs < 256 ^ xs.length := by
  induction xs with
  | nil => simp [leValue]
  | cons b bs ih =>
    have hb := b.isLt
    simp only [leValue, List.length_cons, Nat.pow_succ]
    omega

theorem leBytes_length (n v : Nat) : (leBytes n v).length = n := by
  induction n generalizing v with
  | zero => rfl
  | succ n ih => simp [leBytes, ih]

/-- Writing a little-endian value back gives the bytes it was read from, whatever
lies above them. -/
theorem leBytes_leValue (xs : List Byte) (k : Nat) :
    leBytes xs.length (leValue xs + 256 ^ xs.length * k) = xs := by
  induction xs with
  | nil => rfl
  | cons b bs ih =>
    have hb := b.isLt
    have hk : 256 ^ (bs.length + 1) * k = 256 * (256 ^ bs.length * k) := by
      rw [Nat.pow_succ]; ring
    have h1 : (b.val + 256 * leValue bs + 256 ^ (bs.length + 1) * k) % 256 = b.val := by
      rw [hk]; omega
    have h2 : (b.val + 256 * leValue bs + 256 ^ (bs.length + 1) * k) / 256 =
        leValue bs + 256 ^ bs.length * k := by
      rw [hk]; omega
    simp only [List.length_cons, leBytes, leValue_cons, h1, h2, ih]

theorem leBytes_leValue_self (xs : List Byte) : leBytes xs.length (leValue xs) = xs := by
  have h := leBytes_leValue xs 0
  simpa using h

theorem leValue_leBytes (n v : Nat) : leValue (leBytes n v) = v % 256 ^ n := by
  induction n generalizing v with
  | zero => simp [leBytes, leValue, Nat.mod_one]
  | succ n ih =>
    simp only [leBytes, leValue, ih, Nat.pow_succ]
    rw [Nat.mul_comm (256 ^ n) 256, Nat.mod_mul]

theorem beValue_foldl (xs : List Byte) (acc : Nat) :
    xs.foldl (fun acc b => acc * 256 + b.val) acc = acc * 256 ^ xs.length + leValue xs.reverse := by
  induction xs generalizing acc with
  | nil => simp [leValue]
  | cons b bs ih =>
    simp only [List.foldl_cons, ih, List.reverse_cons, leValue_append, List.length_reverse,
      List.length_cons, leValue, Nat.pow_succ]
    ring

/-- Reading most significant first is reading the reversed bytes least
significant first. -/
theorem beValue_eq_leValue_reverse (xs : List Byte) : beValue xs = leValue xs.reverse := by
  unfold beValue
  rw [beValue_foldl]
  simp

theorem beValue_lt (xs : List Byte) : beValue xs < 256 ^ xs.length := by
  rw [beValue_eq_leValue_reverse]
  simpa using leValue_lt xs.reverse

/-- On the value of 8 bytes `qbswap` is the value of the reversed bytes. -/
theorem qbswap_leValue (bs : List Byte) (h : bs.length = 8) :
    qbswap (leValue bs) = leValue bs.reverse := by
  unfold qbswap
  rw [← h, leBytes_leValue_self]

theorem ui64_ofUi64 (v : Nat) : (raw2quint64.ofUi64 v).ui64 = v % quint64Size := by
  unfold raw2quint64.ofUi64 raw2quint64.ui64
  rw [leValue_leBytes]
  norm_num [quint64Size]

/-- A read of at most 8 bytes overwrites the front of the buffer and leaves the rest. -/
theorem fill_bytes (raw : raw2quint64) (data : List Byte) (h : data.length ≤ 8) :
    (raw.fill data).bytes = data ++ raw.bytes.drop data.length := by
  have hs := raw.size
  unfold raw2quint64.fill
  simp only
  apply List.take_of_length_le
  simp only [List.length_append, List.length_drop]
  omega

theorem shift_width (colSize : Nat) : 2 ^ ((8 - colSize) <<< 3) = 256 ^ (8 - colSize) := by
  rw [Nat.shiftLeft_eq, Nat.mul_comm, pow_mul]
  norm_num

/-- With byte swapping the decoded value is the big-endian reading of the bytes read. -/
theorem decodeColumn_swap (raw : raw2quint64) (data : List Byte) (colSize : Nat)
    (hdata : data.length = colSize) (hsize : colSize ≤ 8) :
    (decodeColumn raw data colSize true).ui64 = beValue data := by
  have hs := raw.size
  have hlen : (data ++ raw.bytes.drop data.length).length = 8 := by
    simp only [List.length_append, List.length_drop]; omega
  have hrest : (raw.bytes.drop data.length).reverse.length = 8 - colSize := by
    simp only [List.length_reverse, List.length_drop]; omega
  have hlt := leValue_lt (raw.bytes.drop data.length).reverse
  rw [hrest] at hlt
  have hbe := beValue_lt data
  have hpow : 256 ^ data.length ≤ 256 ^ 8 := Nat.pow_le_pow_right (by decide) (by omega)
  unfold decodeColumn swapColumn
  rw [if_pos rfl, ui64_ofUi64, raw2quint64.ui64, fill_bytes raw data (by omega),
    qbswap_leValue _ hlen, List.reverse_append, leValue_append, hrest,
    Nat.shiftRight_eq_div_pow, shift_width, ← beValue_eq_leValue_reverse data,
    Nat.add_mul_div_left _ _ (Nat.pos_pow_of_pos _ (by decide))]
  rw [Nat.div_eq_of_lt hlt, Nat.zero_add]
  exact Nat.mod_eq_of_lt (Nat.lt_of_lt_of_le hbe hpow)

/-- Without byte swapping the decoded value is the little-endian reading of the
bytes read, with the bytes left in the buffer above them. -/
theorem decodeColumn_noswap (raw : raw2quint64) (data : List Byte) (colSize : Nat)
    (hdata : data.length ≤ 8) :
    (decodeColumn raw data colSize false).ui64 =
      leValue data + 256 ^ data.length * leValue (raw.bytes.drop data.length) := by
  unfold decodeColumn swapColumn
  simp only [Bool.false_eq_true, if_false]
  rw [raw2quint64.ui64, fill_bytes raw data hdata, leValue_append]

/-! ## The column decoder -/

theorem leValue_replicate_zero (n : Nat) : leValue (List.replicate n (0 : Byte)) = 0 := by
  induction n with
  | zero => rfl
  | succ n ih => rw [List.replicate_succ, leValue_cons, ih]; rfl

theorem leValue_drop_zeroed (n : Nat) :
    leValue ((raw2quint64.ofUi64 0).bytes.drop n) = 0 := by
  have h : (raw2quint64.ofUi64 0).bytes = List.replicate 8 (0 : Byte) := rfl
  rw [h, List.drop_replicate, leValue_replicate_zero]

/-- Without byte swapping, from a zeroed buffer, the decoded value is the
little-endian reading of the bytes read. -/
theorem decodeColumn_zeroed_noswap (data : List Byte) (colSize : Nat) (hdata : data.length ≤ 8) :
    (decodeColumn (raw2quint64.ofUi64 0) data colSize false).ui64 = leValue data := by
  rw [decodeColumn_noswap _ _ _ hdata, leValue_drop_zeroed, Nat.mul_zero, Nat.add_zero]

/-- C6: with byte swapping on, for every width `w` in 1..8 and every `w` bytes
read into the buffer, the decoded value `qbswap(raw.ui64) >> ((8 - w) * 8)` is
the integer whose most significant byte is the first byte read, whatever the
buffer held before the read. -/
theorem decodeColumn_swap_bigEndian (raw : raw2quint64) (data : List Byte) (w : Nat)
    (hw : 1 ≤ w ∧ w ≤ 8) (hdata : data.length = w) :
    (decodeColumn raw data w true).ui64 = beValue data ∧
    qbswap (raw.fill data).ui64 >>> ((8 - w) * 8) = beValue data := by
  have h := decodeColumn_swap raw data w hdata hw.2
  refine ⟨h, ?_⟩
  have hlt : qbswap (raw.fill data).ui64 >>> ((8 - w) * 8) < quint64Size := by
    rw [Nat.shiftRight_eq_div_pow]
    refine Nat.lt_of_le_of_lt (Nat.div_le_self _ _) ?_
    unfold qbswap
    have := leValue_lt (leBytes 8 (raw.fill data).ui64).reverse
    simpa [leBytes_length] using this
  have hsh : (8 - w) <<< 3 = (8 - w) * 8 := by rw [Nat.shiftLeft_eq]
  unfold decodeColumn swapColumn at h
  rw [if_pos rfl, ui64_ofUi64, hsh, Nat.mod_eq_of_lt hlt] at h
  exact h

/-- Witness for C6: the bytes AA 80 read into a buffer full of other bytes
decode to 0xAA80. -/
theorem decodeColumn_swap_bigEndian_witness :
    ((decodeColumn (raw2quint64.ofUi64 0x1122334455667788) [0xAA, 0x80] 2 true).ui64 =
        beValue [0xAA, 0x80] ∧
      qbswap ((raw2quint64.ofUi64 0x1122334455667788).fill [0xAA, 0x80]).ui64 >>> ((8 - 2) * 8) =
        beValue [0xAA, 0x80]) ∧
    beValue [0xAA, 0x80] = 0xAA80 :=
  ⟨decodeColumn_swap_bigEndian (raw2quint64.ofUi64 0x1122334455667788) [0xAA, 0x80] 2
    (by decide) rfl, by decide⟩

/-- C8: decoding from a zeroed buffer round-trips.  For every width `w` in
1..8 and every `w` bytes `b`, the value decoded without byte swapping, written
back as `w` bytes least significant first, is `b`; the value decoded with byte
swapping, written back most significant first, is `b`; and decoding the
reversed bytes with swapping gives the value decoded from `b` without. -/
theorem decodeColumn_roundtrip (data : List Byte) (w : Nat) (hw : 1 ≤ w ∧ w ≤ 8)
    (hdata : data.length = w) :
    leBytes w (decodeColumn (raw2quint64.ofUi64 0) data w false).ui64 = data ∧
    beBytes w (decodeColumn (raw2quint64.ofUi64 0) data w true).ui64 = data ∧
    (decodeColumn (raw2quint64.ofUi64 0) data.reverse w true).ui64 =
      (decodeColumn (raw2quint64.ofUi64 0) data w false).ui64 := by
  have hle : data.length ≤ 8 := by omega
  have hrev : data.reverse.length = w := by rw [List.length_reverse, hdata]
  refine ⟨?_, ?_, ?_⟩
  · rw [decodeColumn_zeroed_noswap data w hle, ← hdata, leBytes_leValue_self]
  · rw [decodeColumn_swap _ data w hdata hw.2, beValue_eq_leValue_reverse, beBytes, ← hrev,
      leBytes_leValue_self, List.reverse_reverse]
  · rw [decodeColumn_swap _ data.reverse w hrev hw.2, decodeColumn_zeroed_noswap data w hle,
      beValue_eq_leValue_reverse, List.reverse_reverse]

/-- Witness for C8: the bytes 12 34 56. -/
theorem decodeColumn_roundtrip_witness :
    leBytes 3 (decodeColumn (raw2quint64.ofUi64 0) [0x12, 0x34, 0x56] 3 false).ui64 =
      [0x12, 0x34, 0x56] ∧
    beBytes 3 (decodeColumn (raw2quint64.ofUi64 0) [0x12, 0x34, 0x56] 3 true).ui64 =
      [0x12, 0x34, 0x56] ∧
    (decodeColumn (raw2quint64.ofUi64 0) [0x12, 0x34, (0x56 : Byte)].reverse 3 true).ui64 =
      (decodeColumn (raw2quint64.ofUi64 0) [0x12, 0x34, 0x56] 3 false).ui64 :=
  decodeColumn_roundtrip [0x12, 0x34, 0x56] 3 (by decide) rfl

/-- C7 fails on the code.  Without byte swapping, a counter column of two
bytes followed by a counter column of one byte, on the record FF FF 7B: the
first column decodes to 65535, but the second decodes to 0xFF7B = 65403 and
not to 0x7B = 123, because the buffer is zeroed once per row and still holds
the second byte of the first column.  The value is not below 2^8 and changes
with the bytes of the first column (record 00 00 7B gives 123).  With byte
swapping the same record gives 123.  The window is valid and `dataToCsv`
writes the same line for an input file holding this record. -/
theorem csvProcessRow_noswap_stale_bytes :
    (dataToCsvLocals twoCounters 1).colSize = [2, 1] ∧
    (csvProcessRow twoCounters [] ⟨[0xFF, 0xFF, 0x7B], 0, fun _ => false⟩ 2 [2, 1] false 0 5).ts =
      [Tok.integer 65535, Tok.comma, Tok.integer 0xFF7B, Tok.comma, Tok.endl] ∧
    (csvProcessRow twoCounters [] ⟨[0x00, 0x00, 0x7B], 0, fun _ => false⟩ 2 [2, 1] false 0 5).ts =
      [Tok.integer 0, Tok.comma, Tok.integer 0x7B, Tok.comma, Tok.endl] ∧
    leValue [0x7B] = 0x7B ∧ ¬ 0xFF7B < 2 ^ (8 * 1) ∧
    (csvProcessRow twoCounters [] ⟨[0xFF, 0xFF, 0x7B], 0, fun _ => false⟩ 2 [2, 1] true 0 5).ts =
      [Tok.integer 65535, Tok.comma, Tok.integer 0x7B, Tok.comma, Tok.endl] ∧
    twoCounters.Valid ∧
    (dataToCsv twoCounters (quietEnv [0xFF, 0xFF, 0x7B]) 2).map (fun o => o.ts) =
      some [Tok.integer 65535, Tok.comma, Tok.integer 0xFF7B, Tok.comma, Tok.endl] := by
  decide

/-- From 4 bytes on `maxVal` is undefined. -/
theorem maxVal_undefined (numBytes : Nat) (h : 4 ≤ numBytes) : maxVal numBytes = none := by
  have hsh : ¬ numBytes <<< 3 < intBits := by
    rw [Nat.shiftLeft_eq]; unfold intBits; omega
  unfold maxVal shlInt
  rw [if_neg hsh]

/-- C9 holds for widths 1 to 3 and fails on the code for widths 4 to 8: the
shift `1 << (numBytes << 3)` is evaluated in `int`, of 32 bits, where a shift
by 32 or more is undefined, so `maxVal` is `2^(8*numBytes) - 1` only up to 3
bytes. -/
theorem maxVal_int_width :
    maxVal 1 = some (2 ^ (8 * 1) - 1) ∧ maxVal 2 = some (2 ^ (8 * 2) - 1) ∧
    maxVal 3 = some (2 ^ (8 * 3) - 1) ∧
    maxVal 4 = none ∧ maxVal 5 = none ∧ maxVal 6 = none ∧ maxVal 7 = none ∧ maxVal 8 = none := by
  decide

/-- The returned expression of `rawIntToVoltage` and the specified formula agree
for one and the same maximum raw value. -/
theorem voltageExpr_eq (value maxVal : Nat) (vMin vMax : ℚ) :
    voltageExpr value maxVal (vMax - vMin) vMin =
      vMin + (value : ℚ) * (vMax - vMin) / (maxVal : ℚ) := by
  unfold voltageExpr
  rw [div_div_eq_mul_div, add_comm]

/-- For widths 1 to 3 `rawIntToVoltage` is the specified mapping. -/
theorem rawIntToVoltage_eq_toVoltage (value numBytes : Nat) (vMin vMax : ℚ)
    (h : 1 ≤ numBytes ∧ numBytes ≤ 3) :
    rawIntToVoltage value numBytes vMin vMax = some (toVoltage value numBytes vMin vMax) := by
  obtain ⟨h1, h3⟩ := h
  have hm : maxVal numBytes = some (2 ^ (numBytes * 8) - 1) := by
    interval_cases numBytes <;> decide
  unfold rawIntToVoltage toVoltage
  simp only [hm, voltageExpr_eq]
  have hp : 1 ≤ 2 ^ (numBytes * 8) := Nat.one_le_two_pow
  rw [Nat.cast_sub hp]
  norm_num

/-- A raw value 32767 of two bytes between 0 and 5 volts maps to
`32767 * 5 / 65535`, which is not 2.5. -/
theorem rawIntToVoltage_example :
    rawIntToVoltage 32767 2 0 5 = some (32767 * 5 / 65535) ∧ (32767 * 5 / 65535 : ℚ) ≠ 5 / 2 := by
  constructor
  · rw [rawIntToVoltage_eq_toVoltage 32767 2 0 5 (by decide)]
    unfold toVoltage
    norm_num
  · norm_num

/-- C10 fails on the code at width 4 (as at 5 to 8): `rawIntToVoltage` has no
defined value there, `maxVal` being undefined, while the specified mapping
gives `32767 * 5 / (2^32 - 1)`. -/
theorem rawIntToVoltage_wide_undefined :
    rawIntToVoltage 32767 4 0 5 = none ∧
    toVoltage 32767 4 0 5 = 32767 * 5 / 4294967295 := by
  constructor
  · unfold rawIntToVoltage
    rw [maxVal_undefined 4 (by decide)]
  · unfold toVoltage
    norm_num

/-! ## Lines of the output -/

theorem count_endl_le_lineCount (ts : List Tok) : ts.count Tok.endl ≤ lineCount ts :=
  Nat.le_add_right _ _

theorem lineCount_le (ts : List Tok) : lineCount ts ≤ ts.count Tok.endl + 1 := by
  unfold lineCount
  split <;> omega

theorem lineCount_append_endl (ts : List Tok) :
    lineCount (ts ++ [Tok.endl]) = ts.count Tok.endl + 1 := by
  unfold lineCount
  simp

theorem lineCount_nil : lineCount [] = 0 := by decide

/-- The column loop ends exactly one line unless a read fails, and ends none then. -/
theorem processColumns_lines (w : Window) (colSize : List Nat) (byteSwap : Bool) (vMin vMax : ℚ)
    (cols : List Nat) (raw : raw2quint64) (infile : QFile) (ts : List Tok) :
    ((processColumns w colSize byteSwap vMin vMax cols raw infile ts).readFailed = true ∧
      (processColumns w colSize byteSwap vMin vMax cols raw infile ts).ts.count Tok.endl =
        ts.count Tok.endl) ∨
    ((processColumns w colSize byteSwap vMin vMax cols raw infile ts).readFailed = false ∧
      ∃ pre, (processColumns w colSize byteSwap vMin vMax cols raw infile ts).ts =
          pre ++ [Tok.endl] ∧ pre.count Tok.endl = ts.count Tok.endl) := by
  induction cols generalizing raw infile ts with
  | nil => exact Or.inr ⟨rfl, ts, rfl, rfl⟩
  | cons col rest ih =>
    unfold processColumns
    cases hread : infile.read (colSize.getD col 0) with
    | none => exact Or.inl ⟨rfl, rfl⟩
    | some r =>
      obtain ⟨data, infile'⟩ := r
      simp only
      split
      · have h := ih (decodeColumn raw data (colSize.getD col 0) byteSwap) infile'
          (ts ++ [Tok.integer (decodeColumn raw data (colSize.getD col 0) byteSwap).ui64, Tok.comma])
        simpa using h
      · have h := ih (decodeColumn raw data (colSize.getD col 0) byteSwap) infile'
          (ts ++ [Tok.real (rawIntToVoltage (decodeColumn raw data (colSize.getD col 0) byteSwap).ui64
            (colSize.getD col 0) vMin vMax), Tok.comma])
        simpa using h

theorem csvProcessRow_lineCount (w : Window) (ts : List Tok) (infile : QFile) (colCount : Nat)
    (colSize : List Nat) (byteSwap : Bool) (vMin vMax : ℚ) :
    lineCount (csvProcessRow w ts infile colCount colSize byteSwap vMin vMax).ts ≤
      lineCount ts + 1 := by
  unfold csvProcessRow
  rcases processColumns_lines w colSize byteSwap vMin vMax (List.range colCount)
    (raw2quint64.ofUi64 0) infile ts with ⟨_, h⟩ | ⟨_, pre, hpre, hc⟩
  · have h1 := lineCount_le
      (processColumns w colSize byteSwap vMin vMax (List.range colCount) (raw2quint64.ofUi64 0)
        infile ts).ts
    have h2 := count_endl_le_lineCount ts
    omega
  · rw [hpre, lineCount_append_endl, hc]
    have h2 := count_endl_le_lineCount ts
    omega

/-! ## The conversion loop -/

/-- A complete pass happens below the row limit, counts one row and adds at most one line. -/
theorem loopPass_again (w : Window) (wasCanceled : Nat → Bool) (l : Locals) (s s' : RunState)
    (h : loopPass w wasCanceled l s = Pass.again s') :
    (0 < l.rowLimit → s.rowsOutput < l.rowLimit) ∧
    s'.rowsOutput = (s.rowsOutput + 1) % quint64Size ∧
    lineCount s'.ts ≤ lineCount s.ts + 1 := by
  unfold loopPass at h
  split at h
  · exact absurd h (by simp)
  · split at h
    · exact absurd h (by simp)
    · rename_i hlim
      split at h
      · exact absurd h (by simp)
      · simp only [Pass.again.injEq] at h
        subst h
        refine ⟨fun hpos => ?_, rfl, csvProcessRow_lineCount _ _ _ _ _ _ _ _⟩
        by_contra hge
        exact hlim ⟨hpos, Nat.le_of_not_lt hge⟩

/-- Leaving the loop changes neither the text nor the row counter. -/
theorem loopPass_exit (w : Window) (wasCanceled : Nat → Bool) (l : Locals) (s s' : RunState)
    (h : loopPass w wasCanceled l s = Pass.exit s') :
    s'.ts = s.ts ∧ s'.rowsOutput = s.rowsOutput := by
  unfold loopPass at h
  split at h
  · simp only [Pass.exit.injEq] at h; subst h; exact ⟨rfl, rfl⟩
  · split at h
    · simp only [Pass.exit.injEq] at h; subst h; exact ⟨rfl, rfl⟩
    · split at h
      · simp only [Pass.exit.injEq] at h; subst h; exact ⟨rfl, rfl⟩
      · exact absurd h (by simp)

/-- Below a positive row limit the loop never stops for lack of a decision: a pass
either leaves or continues, and it leaves once the counter has reached the limit. -/
theorem loopPass_exit_at_limit (w : Window) (wasCanceled : Nat → Bool) (l : Locals) (s : RunState)
    (hpos : 0 < l.rowLimit) (hge : l.rowLimit ≤ s.rowsOutput) :
    ∃ s', loopPass w wasCanceled l s = Pass.exit s' := by
  unfold loopPass
  split
  · exact ⟨_, rfl⟩
  · rw [if_pos ⟨hpos, hge⟩]
    exact ⟨_, rfl⟩

/-- The invariant of the loop of `dataToCsv` under a positive row limit. -/
theorem loopPass_invariant (w : Window) (wasCanceled : Nat → Bool) (l : Locals) (s s' : RunState)
    (hpos : 0 < l.rowLimit) (hlim : l.rowLimit < quint64Size)
    (h : loopPass w wasCanceled l s = Pass.again s')
    (hinv : s.rowsOutput ≤ l.rowLimit ∧ lineCount s.ts ≤ s.rowsOutput) :
    s'.rowsOutput ≤ l.rowLimit ∧ lineCount s'.ts ≤ s'.rowsOutput := by
  obtain ⟨h1, h2, h3⟩ := loopPass_again w wasCanceled l s s' h
  have hlt := h1 hpos
  have hmod : (s.rowsOutput + 1) % quint64Size = s.rowsOutput + 1 :=
    Nat.mod_eq_of_lt (by omega)
  rw [hmod] at h2
  omega

/-- The invariant holds after any number of complete passes. -/
theorem afterPasses_invariant (w : Window) (wasCanceled : Nat → Bool) (l : Locals)
    (hpos : 0 < l.rowLimit) (hlim : l.rowLimit < quint64Size) (n : Nat) (s s' : RunState)
    (h : afterPasses w wasCanceled l n s = some s')
    (hinv : s.rowsOutput ≤ l.rowLimit ∧ lineCount s.ts ≤ s.rowsOutput) :
    s'.rowsOutput ≤ l.rowLimit ∧ lineCount s'.ts ≤ s'.rowsOutput := by
  induction n generalizing s with
  | zero =>
    simp only [afterPasses, Option.some.injEq] at h
    subst h; exact hinv
  | succ n ih =>
    unfold afterPasses at h
    cases hp : loopPass w wasCanceled l s with
    | exit t => rw [hp] at h; exact absurd h (by simp)
    | again t =>
      rw [hp] at h
      exact ih t h (loopPass_invariant w wasCanceled l s t hpos hlim hp hinv)

/-- The invariant holds when the loop is left. -/
theorem runLoop_invariant (w : Window) (wasCanceled : Nat → Bool) (l : Locals)
    (hpos : 0 < l.rowLimit) (hlim : l.rowLimit < quint64Size) (fuel : Nat) (s s' : RunState)
    (h : runLoop w wasCanceled l fuel s = some s')
    (hinv : s.rowsOutput ≤ l.rowLimit ∧ lineCount s.ts ≤ s.rowsOutput) :
    s'.rowsOutput ≤ l.rowLimit ∧ lineCount s'.ts ≤ s'.rowsOutput := by
  induction fuel generalizing s with
  | zero => exact absurd h (by simp [runLoop])
  | succ n ih =>
    unfold runLoop at h
    cases hp : loopPass w wasCanceled l s with
    | exit t =>
      rw [hp] at h
      simp only [Option.some.injEq] at h
      subst h
      obtain ⟨h1, h2⟩ := loopPass_exit w wasCanceled l s t hp
      rw [h1, h2]; exact hinv
    | again t =>
      rw [hp] at h
      exact ih t h (loopPass_invariant w wasCanceled l s t hpos hlim hp hinv)

/-- Under a positive row limit the loop is left after at most
`rowLimit - rowsOutput + 1` passes. -/
theorem runLoop_terminates (w : Window) (wasCanceled : Nat → Bool) (l : Locals)
    (hpos : 0 < l.rowLimit) (hlim : l.rowLimit < quint64Size) (fuel : Nat) (s : RunState)
    (hle : s.rowsOutput ≤ l.rowLimit) (hfuel : l.rowLimit - s.rowsOutput < fuel) :
    ∃ s', runLoop w wasCanceled l fuel s = some s' := by
  induction fuel generalizing s with
  | zero => omega
  | succ n ih =>
    unfold runLoop
    cases hp : loopPass w wasCanceled l s with
    | exit t => exact ⟨t, rfl⟩
    | again t =>
      obtain ⟨h1, h2, _⟩ := loopPass_again w wasCanceled l s t hp
      have hlt := h1 hpos
      have hmod : (s.rowsOutput + 1) % quint64Size = s.rowsOutput + 1 :=
        Nat.mod_eq_of_lt (by omega)
      rw [hmod] at h2
      exact ih t (by omega) (by omega)

theorem writeColumnNames_count (w : Window) (cols : List Nat) (retval : Bool) (ts : List Tok) :
    (writeColumnNames w cols retval ts).2.count Tok.endl = ts.count Tok.endl := by
  induction cols generalizing retval ts with
  | nil => rfl
  | cons index rest ih =>
    unfold writeColumnNames
    split
    · rfl
    · rw [ih]; simp

theorem writeColumnNames_true (w : Window) (cols : List Nat) (ts : List Tok) :
    (writeColumnNames w cols true ts).1 = true := by
  induction cols generalizing ts with
  | nil => rfl
  | cons index rest ih =>
    unfold writeColumnNames
    split
    · rfl
    · exact ih _

/-- In a valid window the line of column names holds a name. -/
theorem csvWriteColumnNames_valid (w : Window) (hw : w.Valid) (ts : List Tok) :
    (csvWriteColumnNames w ts).1 = true := by
  obtain ⟨h1, _, _, _, _, h6, _, h8, _⟩ := hw
  unfold csvWriteColumnNames
  simp only
  obtain ⟨n, hn⟩ : ∃ n, w.spinColumns = n + 1 := ⟨w.spinColumns - 1, by omega⟩
  rw [hn, List.range_succ_eq_map, writeColumnNames]
  cases hh : w.dataComboHidden with
  | nil => rw [hh] at h6; simp at h6; omega
  | cons b bs =>
    have hb : b = false := h8 b (by rw [hh, hn]; simp)
    subst hb
    simp only [List.getD_cons_zero, Bool.false_eq_true, if_false]
    exact writeColumnNames_true _ _ _

/-- The invariant holds when the loop is entered. -/
theorem dataToCsvStart_invariant (w : Window) (hw : w.Valid) (hpos : 0 < w.comboRowLimit)
    (infile : QFile) :
    (dataToCsvStart w infile).rowsOutput ≤ w.comboRowLimit ∧
    lineCount (dataToCsvStart w infile).ts ≤ (dataToCsvStart w infile).rowsOutput := by
  have hn := csvWriteColumnNames_valid w hw []
  unfold dataToCsvStart
  simp only [hn, and_true]
  cases hc : w.checkBoxWriteColNames with
  | false => simp [lineCount_nil]
  | true =>
    simp only [if_true]
    refine ⟨hpos, ?_⟩
    unfold csvWriteColumnNames
    simp only
    rw [lineCount_append_endl, writeColumnNames_count]
    simp

/-- C4: in a valid window with a row limit `rowLimit > 0`, whatever the
input, the cancellations and the read errors: after any number of passes of
the loop of `dataToCsv` the counter satisfies `rowsOutput ≤ rowLimit` and the
text written has at most `rowsOutput` lines; so has the final state of every
run, whose text therefore has at most `rowLimit` lines (line of column names
included); and the run does end, within `rowLimit + 1` passes, whenever the
divisor is defined. -/
theorem dataToCsv_within_rowLimit (w : Window) (env : Env) (hw : w.Valid)
    (hlimit : 0 < w.comboRowLimit) :
    (∀ divCount n s,
        afterPasses w env.wasCanceled (dataToCsvLocals w divCount) n
          (dataToCsvStart w (csvOpenFiles w env).infile) = some s →
        s.rowsOutput ≤ w.comboRowLimit ∧ lineCount s.ts ≤ s.rowsOutput) ∧
    (∀ fuel o, dataToCsv w env fuel = some o →
        o.rowsOutput ≤ w.comboRowLimit ∧ lineCount o.ts ≤ o.rowsOutput ∧
        lineCount o.ts ≤ w.comboRowLimit) ∧
    ((infileRowLimitDivisor w (csvOpenFiles w env).disk).isSome →
        ∃ o, dataToCsv w env (w.comboRowLimit + 1) = some o) := by
  have hlim : w.comboRowLimit < quint64Size := hw.2.2.2.2.2.2.2.2
  have hstart := dataToCsvStart_invariant w hw hlimit (csvOpenFiles w env).infile
  refine ⟨?_, ?_, ?_⟩
  · intro divCount n s h
    exact afterPasses_invariant w env.wasCanceled (dataToCsvLocals w divCount) hlimit hlim n _ s h
      hstart
  · intro fuel o h
    unfold dataToCsv at h
    simp only at h
    split at h
    · simp only [Option.some.injEq] at h
      subst h
      simp [lineCount_nil]
    · split at h
      · exact absurd h (by simp)
      · rename_i divCount _
        split at h
        · exact absurd h (by simp)
        · rename_i s hs
          simp only [Option.some.injEq] at h
          subst h
          have hinv : s.rowsOutput ≤ w.comboRowLimit ∧ lineCount s.ts ≤ s.rowsOutput :=
            runLoop_invariant w env.wasCanceled (dataToCsvLocals w divCount) hlimit hlim fuel _ s
              hs hstart
          simp only
          omega
  · intro hdiv
    unfold dataToCsv
    simp only
    split
    · exact ⟨_, rfl⟩
    · obtain ⟨divCount, hd⟩ := Option.isSome_iff_exists.1 hdiv
      obtain ⟨s, hs⟩ := runLoop_terminates w env.wasCanceled (dataToCsvLocals w divCount) hlimit
        hlim (w.comboRowLimit + 1) (dataToCsvStart w (csvOpenFiles w env).infile) hstart.1
        (Nat.lt_succ_of_le (Nat.sub_le _ _))
      rw [hd]
      simp only [hs]
      exact ⟨_, rfl⟩

/-- Witness for C4: 201 rows, limit 50, with the line of column names. -/
theorem dataToCsv_within_rowLimit_witness :
    (∀ divCount n s,
        afterPasses limit50Names (quietEnv (List.replicate 201 0)).wasCanceled
          (dataToCsvLocals limit50Names divCount) n
          (dataToCsvStart limit50Names
            (csvOpenFiles limit50Names (quietEnv (List.replicate 201 0))).infile) = some s →
        s.rowsOutput ≤ limit50Names.comboRowLimit ∧ lineCount s.ts ≤ s.rowsOutput) ∧
    (∀ fuel o, dataToCsv limit50Names (quietEnv (List.replicate 201 0)) fuel = some o →
        o.rowsOutput ≤ limit50Names.comboRowLimit ∧ lineCount o.ts ≤ o.rowsOutput ∧
        lineCount o.ts ≤ limit50Names.comboRowLimit) ∧
    ((infileRowLimitDivisor limit50Names
        (csvOpenFiles limit50Names (quietEnv (List.replicate 201 0))).disk).isSome →
        ∃ o, dataToCsv limit50Names (quietEnv (List.replicate 201 0))
          (limit50Names.comboRowLimit + 1) = some o) :=
  dataToCsv_within_rowLimit limit50Names (quietEnv (List.replicate 201 0)) (by decide) (by decide)


/-! ## The voltage mapping at its end points -/

/-- For widths 1 to 3 and `vMin < vMax`, `rawIntToVoltage` maps 0 to `vMin`, the
largest raw value to `vMax` and every raw value up to it into `[vMin, vMax]`. -/
theorem rawIntToVoltage_range (value numBytes : Nat) (vMin vMax : ℚ)
    (h : 1 ≤ numBytes ∧ numBytes ≤ 3) (hv : vMin < vMax)
    (hvalue : value ≤ 2 ^ (8 * numBytes) - 1) :
    ∃ v, rawIntToVoltage value numBytes vMin vMax = some v ∧ vMin ≤ v ∧ v ≤ vMax ∧
      (value = 0 → v = vMin) ∧ (value = 2 ^ (8 * numBytes) - 1 → v = vMax) := by
  refine ⟨toVoltage value numBytes vMin vMax, rawIntToVoltage_eq_toVoltage _ _ _ _ h, ?_⟩
  have hone : 1 ≤ 2 ^ (8 * numBytes) := Nat.one_le_two_pow
  have htwo : 2 ≤ 2 ^ (8 * numBytes) := by
    calc 2 = 2 ^ 1 := rfl
      _ ≤ 2 ^ (8 * numBytes) := Nat.pow_le_pow_right (by decide) (by omega)
  have hle : value + 1 ≤ 2 ^ (8 * numBytes) := by omega
  have hleQ : (value : ℚ) + 1 ≤ 2 ^ (8 * numBytes) := by exact_mod_cast hle
  have htwoQ : (2 : ℚ) ≤ 2 ^ (8 * numBytes) := by exact_mod_cast htwo
  have hM : (0 : ℚ) < 2 ^ (numBytes * 8) - 1 := by rw [Nat.mul_comm]; linarith
  have hr : 0 < vMax - vMin := by linarith
  have hval0 : (0 : ℚ) ≤ value := Nat.cast_nonneg _
  have hvalM : (value : ℚ) ≤ 2 ^ (numBytes * 8) - 1 := by rw [Nat.mul_comm]; linarith
  unfold toVoltage
  refine ⟨?_, ?_, ?_, ?_⟩
  · have : 0 ≤ (value : ℚ) * (vMax - vMin) / (2 ^ (numBytes * 8) - 1) :=
      div_nonneg (mul_nonneg hval0 hr.le) hM.le
    linarith
  · have : (value : ℚ) * (vMax - vMin) / (2 ^ (numBytes * 8) - 1) ≤ vMax - vMin := by
      rw [div_le_iff₀ hM]
      nlinarith
    linarith
  · intro h0
    subst h0
    simp
  · intro hmax
    have hc : (value : ℚ) = 2 ^ (numBytes * 8) - 1 := by
      rw [hmax, Nat.cast_sub hone, Nat.mul_comm]
      norm_num
    rw [hc, mul_div_cancel_left₀ _ hM.ne']
    ring

/-- C11 fails on the code at width 4 (as at 5 to 8): `rawIntToVoltage` has no
defined value for the raw values 0 and `2^32 - 1`, `maxVal` being undefined,
while the specified mapping sends them to `vMin = 0` and `vMax = 5`.  For
widths 1 to 3 the code does what the claim says (`rawIntToVoltage_range`). -/
theorem rawIntToVoltage_endpoints_wide :
    rawIntToVoltage 0 4 0 5 = none ∧ rawIntToVoltage (2 ^ (8 * 4) - 1) 4 0 5 = none ∧
    toVoltage 0 4 0 5 = 0 ∧ toVoltage (2 ^ (8 * 4) - 1) 4 0 5 = 5 := by
  refine ⟨?_, ?_, ?_, ?_⟩
  · unfold rawIntToVoltage
    rw [maxVal_undefined 4 (by decide)]
  · unfold rawIntToVoltage
    rw [maxVal_undefined 4 (by decide)]
  · unfold toVoltage
    norm_num
  · unfold toVoltage
    norm_num

/-! ## Partial records, the same file twice, read errors -/

/-- C12 fails on the code.  Two counter columns of one byte each and an input
of the single byte 05: the input counts as one row and the row is written,
but the second column, whose byte is missing, decodes to 5 and not to 0, with
and without byte swapping, because the buffer still holds the first column.
The record 05 00, the same record padded with zero, gives 5 and 0. -/
theorem csvProcessRow_partial_stale_bytes :
    twoBytes.Valid ∧ infileNumberRows twoBytes (diskWith [5]) = some 1 ∧
    (dataToCsv twoBytes (quietEnv [5]) 2).map (fun o => o.ts) =
      some [Tok.integer 5, Tok.comma, Tok.integer 5, Tok.comma, Tok.endl] ∧
    (dataToCsv twoBytesSwapped (quietEnv [5]) 2).map (fun o => o.ts) =
      some [Tok.integer 5, Tok.comma, Tok.integer 5, Tok.comma, Tok.endl] ∧
    (dataToCsv twoBytes (quietEnv [5, 0]) 2).map (fun o => o.ts) =
      some [Tok.integer 5, Tok.comma, Tok.integer 0, Tok.comma, Tok.endl] ∧
    (dataToCsv twoBytesSwapped (quietEnv [5, 0]) 2).map (fun o => o.ts) =
      some [Tok.integer 5, Tok.comma, Tok.integer 0, Tok.comma, Tok.endl] := by
  decide

/-- C16 fails on the code.  With the output written over the input file
`in.bin`, which holds the bytes 01 02 03, `dataToCsv` reports the same-file
error and writes no row, but the file is empty afterwards: it was opened for
writing, which empties it, before the two paths were compared. -/
theorem dataToCsv_same_file_truncated :
    (quietEnv [1, 2, 3]).disk.content "in.bin" = some [1, 2, 3] ∧
    (quietEnv [1, 2, 3]).disk.canonicalFilePath sameFile.comboInfile =
      (quietEnv [1, 2, 3]).disk.canonicalFilePath sameFile.comboOutfile ∧
    (dataToCsv sameFile (quietEnv [1, 2, 3]) 0).map
        (fun o => (o.statusBarMessage, o.ts, o.disk.content "in.bin")) =
      some ("Input and output files must not be the same file!", [], some []) := by
  decide

/-- C18 fails on the code.  Two counter columns of one byte each, a row limit
of 2 (divisor 2), an input of 8 bytes and a device that fails the read at
offset 1: the first row stops after its first field without an end of line,
the run goes on from offset 3 and appends the next row to the same line, and
ends with "Processing complete.".  The one line written has three fields. -/
theorem dataToCsv_read_error_partial_line :
    twoBytesLimit2.Valid ∧
    infileRowLimitDivisor twoBytesLimit2
      (csvOpenFiles twoBytesLimit2 (failingEnv [1, 2, 3, 4, 5, 6, 7, 8])).disk = some 2 ∧
    (dataToCsv twoBytesLimit2 (failingEnv [1, 2, 3, 4, 5, 6, 7, 8]) 3).map
        (fun o => (o.statusBarMessage, o.ts, o.cancelled, o.rowsOutput)) =
      some ("Processing complete.",
        [Tok.integer 1, Tok.comma, Tok.integer 4, Tok.comma, Tok.integer 5, Tok.comma, Tok.endl],
        false, 2) := by
  decide

/-! ## The example of 400,000 rows -/

/-- The disk `diskWith data` opens `in.bin` with its bytes. -/
theorem diskWith_openRead (data : List Byte) :
    (diskWith data).openRead (trimmed "in.bin") = some data := by
  have h : trimmed "in.bin" = "in.bin" := by decide
  rw [h]
  rfl

/-- An input of `n` complete records has `n` rows. -/
theorem infileNumberRows_full (w : Window) (disk : Disk) (data : List Byte) (n : Nat)
    (hopen : disk.openRead (trimmed w.comboInfile) = some data) (hsize : 1 ≤ rowDataSize w)
    (hlen : data.length = n * rowDataSize w) (hfit : data.length < quint64Size) :
    infileNumberRows w disk = some n := by
  have hne : rowDataSize w ≠ 0 := by omega
  have hmod : data.length % quint64Size = data.length := Nat.mod_eq_of_lt hfit
  have hrem : data.length % rowDataSize w = 0 := by rw [hlen, Nat.mul_mod_left]
  have hdiv : data.length / rowDataSize w = n := by rw [hlen, Nat.mul_div_cancel _ hsize]
  unfold infileNumberRows
  rw [hopen]
  simp only [hmod, if_neg hne, hrem, hdiv, ne_eq, not_true_eq_false, if_false]

/-- The divisor is computed from the row count of the input file. -/
theorem infileRowLimitDivisor_of_rows (w : Window) (disk : Disk) (rows : Nat)
    (hrows : infileNumberRows w disk = some rows) :
    infileRowLimitDivisor w disk = rowLimitDivisor w.comboRowLimit rows w.checkBoxWriteColNames := by
  unfold infileRowLimitDivisor
  rw [hrows]

/-- C19 fails on the code: for 400,000 rows and a row limit of 65536
`infileRowLimitDivisor` returns 7, not 6, with and without the line of column
names. -/
theorem infileRowLimitDivisor_400000 :
    infileNumberRows limit65536 (diskWith (List.replicate 400000 0)) = some 400000 ∧
    limit65536.comboRowLimit = 65536 ∧
    infileRowLimitDivisor limit65536 (diskWith (List.replicate 400000 0)) = some 7 ∧
    infileRowLimitDivisor limit65536Names (diskWith (List.replicate 400000 0)) = some 7 := by
  have h1 : infileNumberRows limit65536 (diskWith (List.replicate 400000 0)) = some 400000 :=
    infileNumberRows_full _ _ _ 400000 (diskWith_openRead _) (by decide)
      (by rw [List.length_replicate]; decide) (by rw [List.length_replicate]; decide)
  have h2 : infileNumberRows limit65536Names (diskWith (List.replicate 400000 0)) =
      some 400000 :=
    infileNumberRows_full _ _ _ 400000 (diskWith_openRead _) (by decide)
      (by rw [List.length_replicate]; decide) (by rw [List.length_replicate]; decide)
  have hd : ∀ names, rowLimitDivisor 65536 400000 names = some 7 := by
    intro names
    rw [rowLimitDivisor_eq 65536 400000 names (by decide) (by decide) (by decide)]
    cases names <;> decide
  exact ⟨h1, rfl, (infileRowLimitDivisor_of_rows _ _ _ h1).trans (hd _),
    (infileRowLimitDivisor_of_rows _ _ _ h2).trans (hd _)⟩

/-! ## The voltage range -/

/-- C20 fails on the code.  From the boxes at 0 and 1000 the user sets the low
voltage to 1000: `minVoltageChanged` sets the high voltage to 1001, the spin
box clamps it to 1000, its value does not change, no slot runs, and both boxes
stand at 1000.  Likewise the high voltage set to -1000 from -1000 and 0 leaves
both at -1000.  (From 0 and 5 the high voltage can be set to 1000.) -/
theorem setMinVoltage_at_upper_bound :
    setMinVoltage 4 1000 ⟨0, 1000⟩ = some ⟨1000, 1000⟩ ∧
    setMaxVoltage 4 (-1000) ⟨-1000, 0⟩ = some ⟨-1000, -1000⟩ ∧
    setMaxVoltage 4 1000 ⟨0, 5⟩ = some ⟨0, 1000⟩ ∧
    ¬ ((1000 : ℚ) > 1000) := by
  refine ⟨?_, ?_, ?_, ?_⟩
  · norm_num [setMinVoltage, voltageChanged, clampVoltage, minVoltageDifference]
  · norm_num [setMaxVoltage, voltageChanged, clampVoltage, minVoltageDifference]
  · norm_num [setMaxVoltage, voltageChanged, clampVoltage, minVoltageDifference]
  · norm_num

/-! ## The divisor and the specified stride -/

/-- The search returns the first candidate that fits, if one is within its fuel. -/
theorem strideSearch_spec (totalRows rowCap fuel d : Nat)
    (h : ∃ e, d ≤ e ∧ e < d + fuel ∧ ceilDiv totalRows e ≤ rowCap) :
    ceilDiv totalRows (strideSearch totalRows rowCap fuel d) ≤ rowCap ∧
    d ≤ strideSearch totalRows rowCap fuel d ∧
    ∀ k, d ≤ k → k < strideSearch totalRows rowCap fuel d → rowCap < ceilDiv totalRows k := by
  induction fuel generalizing d with
  | zero =>
    obtain ⟨e, h1, h2, _⟩ := h
    omega
  | succ n ih =>
    unfold strideSearch
    by_cases hd : ceilDiv totalRows d ≤ rowCap
    · rw [if_pos hd]
      exact ⟨hd, Nat.le_refl _, fun k h1 h2 => by omega⟩
    · rw [if_neg hd]
      obtain ⟨e, h1, h2, h3⟩ := h
      have hne : e ≠ d := fun heq => hd (heq ▸ h3)
      obtain ⟨i1, i2, i3⟩ := ih (d + 1) ⟨e, by omega, by omega, h3⟩
      refine ⟨i1, by omega, fun k k1 k2 => ?_⟩
      rcases Nat.eq_or_lt_of_le k1 with heq | hlt
      · subst heq; omega
      · exact i3 k hlt k2

/-- The specified stride is the smallest divisor whose rounded-up quotient fits the cap. -/
theorem stride_spec (totalRows rowCap : Nat) (hcap : 0 < rowCap) (hlt : rowCap < totalRows) :
    1 ≤ stride totalRows rowCap ∧ ceilDiv totalRows (stride totalRows rowCap) ≤ rowCap ∧
    ∀ k, 1 ≤ k → k < stride totalRows rowCap → rowCap < ceilDiv totalRows k := by
  have hfit : ceilDiv totalRows totalRows ≤ rowCap := by
    rw [ceilDiv_le_iff _ _ _ (by omega)]
    exact Nat.le_mul_of_pos_left _ hcap
  obtain ⟨h1, h2, h3⟩ := strideSearch_spec totalRows rowCap totalRows 1
    ⟨totalRows, by omega, by omega, hfit⟩
  unfold stride
  rw [if_neg (by omega)]
  exact ⟨h2, h1, h3⟩

/-- C14 as stated fails: with the line of column names and a row limit of 50,
200 rows give the divisor 4 where the specified stride for 201 rows is 5, and
50 rows give the divisor 1 where the specified stride for 51 rows is 2. -/
theorem infileRowLimitDivisor_header_not_stride :
    limit50Names.checkBoxWriteColNames = true ∧ limit50Names.comboRowLimit = 50 ∧
    infileNumberRows limit50Names (diskWith (List.replicate 200 0)) = some 200 ∧
    infileRowLimitDivisor limit50Names (diskWith (List.replicate 200 0)) = some 4 ∧
    stride (200 + 1) 50 = 5 ∧
    infileNumberRows limit50Names (diskWith (List.replicate 50 0)) = some 50 ∧
    infileRowLimitDivisor limit50Names (diskWith (List.replicate 50 0)) = some 1 ∧
    stride (50 + 1) 50 = 2 := by
  have h200 : infileNumberRows limit50Names (diskWith (List.replicate 200 0)) = some 200 :=
    infileNumberRows_full _ _ _ 200 (diskWith_openRead _) (by decide)
      (by rw [List.length_replicate]; decide) (by rw [List.length_replicate]; decide)
  have h50 : infileNumberRows limit50Names (diskWith (List.replicate 50 0)) = some 50 :=
    infileNumberRows_full _ _ _ 50 (diskWith_openRead _) (by decide)
      (by rw [List.length_replicate]; decide) (by rw [List.length_replicate]; decide)
  refine ⟨rfl, rfl, h200, ?_, by decide, h50, ?_, by decide⟩
  · rw [infileRowLimitDivisor_of_rows _ _ _ h200]
    decide
  · rw [infileRowLimitDivisor_of_rows _ _ _ h50]
    decide

/-- C14 (amended): with the line of column names and a row limit
`rowLimit > 0`, the divisor is computed for `rows + 1` rows: it is 1 when
`rows + 1 ≤ rowLimit`, and when `rowLimit < rows` it is the smallest `d ≥ 1`
with `(rows + 1) / d ≤ rowLimit` in integer division. -/
theorem infileRowLimitDivisor_header_slot (w : Window) (disk : Disk) (rows : Nat)
    (hrows : infileNumberRows w disk = some rows) (hnames : w.checkBoxWriteColNames = true)
    (hpos : 0 < w.comboRowLimit) (hsize : rows + 1 < quint64Size) :
    (rows + 1 ≤ w.comboRowLimit → infileRowLimitDivisor w disk = some 1) ∧
    (w.comboRowLimit < rows →
      ∃ d, infileRowLimitDivisor w disk = some d ∧ 1 ≤ d ∧ (rows + 1) / d ≤ w.comboRowLimit ∧
        ∀ k, 1 ≤ k → k < d → w.comboRowLimit < (rows + 1) / k) := by
  have hR : dividedRows rows w.checkBoxWriteColNames = rows + 1 := by
    unfold dividedRows; rw [if_pos hnames]
  refine ⟨fun hle => ?_, fun hlt => ?_⟩
  · rw [infileRowLimitDivisor_of_rows w disk rows hrows]
    exact rowLimitDivisor_eq_one _ _ _ (Or.inr (by omega))
  · refine ⟨(rows + 1) / (w.comboRowLimit + 1) + 1, ?_, Nat.succ_pos _, ?_, ?_⟩
    · rw [infileRowLimitDivisor_of_rows w disk rows hrows,
        rowLimitDivisor_eq _ _ _ hpos hlt hsize, hR]
    · rw [← Nat.lt_succ_iff, Nat.div_lt_iff_lt_mul (Nat.succ_pos _), Nat.mul_comm]
      exact (Nat.div_lt_iff_lt_mul (Nat.succ_pos _)).1 (Nat.lt_succ_self _)
    · intro k hk hkd
      have hks : k ≤ (rows + 1) / (w.comboRowLimit + 1) := Nat.lt_succ_iff.1 hkd
      have hmul : k * (w.comboRowLimit + 1) ≤ rows + 1 :=
        (Nat.le_div_iff_mul_le (Nat.succ_pos _)).1 hks
      apply Nat.lt_of_succ_le
      rw [Nat.le_div_iff_mul_le hk, Nat.mul_comm]
      exact hmul

/-- Witness for C14 (amended): 200 rows, limit 50, with the line of column names. -/
theorem infileRowLimitDivisor_header_slot_witness :
    (200 + 1 ≤ limit50Names.comboRowLimit →
      infileRowLimitDivisor limit50Names (diskWith (List.replicate 200 0)) = some 1) ∧
    (limit50Names.comboRowLimit < 200 →
      ∃ d, infileRowLimitDivisor limit50Names (diskWith (List.replicate 200 0)) = some d ∧
        1 ≤ d ∧ (200 + 1) / d ≤ limit50Names.comboRowLimit ∧
        ∀ k, 1 ≤ k → k < d → limit50Names.comboRowLimit < (200 + 1) / k) :=
  infileRowLimitDivisor_header_slot limit50Names (diskWith (List.replicate 200 0)) 200
    (infileNumberRows_full _ _ _ 200 (diskWith_openRead _) (by decide)
      (by rw [List.length_replicate]; decide) (by rw [List.length_replicate]; decide))
    (by decide) (by decide) (by decide)

/-! ## The conversion, record by record -/

/-- The sizes of the displayed columns, as `dataToCsv` lists them. -/
theorem colSize_getD (w : Window) (index : Nat) (h : index < w.spinColumns) :
    ((List.range w.spinColumns).map (fun i => w.dataSpinNumBytes.getD i 0)).getD index 0 =
      w.dataSpinNumBytes.getD index 0 := by
  simp [List.getD_eq_getElem?_getD, h]

theorem foldl_add_eq_sum (f : Nat → Nat) (l : List Nat) (acc : Nat) :
    l.foldl (fun a i => a + f i) acc = acc + (l.map f).sum := by
  induction l generalizing acc with
  | nil => simp
  | cons x xs ih => simp [ih, Nat.add_assoc]

/-- The record size is the sum of the column sizes that `csvProcessRow` reads. -/
theorem rowDataSize_eq_sum (w : Window) :
    rowDataSize w =
      ((List.range w.spinColumns).map
        (fun col => ((List.range w.spinColumns).map
          (fun i => w.dataSpinNumBytes.getD i 0)).getD col 0)).sum := by
  unfold rowDataSize
  rw [foldl_add_eq_sum, Nat.zero_add]
  congr 1
  apply List.map_congr_left
  intro i hi
  rw [colSize_getD w i (List.mem_range.1 hi)]

/-- A read without error delivers the next bytes of the file. -/
theorem QFile_read_ok (f : QFile) (maxSize : Nat) (h : f.readError f.pos = false) :
    f.read maxSize =
      some ((f.data.drop f.pos).take maxSize,
        { f with pos := f.pos + ((f.data.drop f.pos).take maxSize).length }) := by
  unfold QFile.read
  simp [h]

/-- The text written by the column loop is appended to the text before it. -/
theorem processColumns_append (w : Window) (colSize : List Nat) (byteSwap : Bool) (vMin vMax : ℚ)
    (cols : List Nat) (raw : raw2quint64) (infile : QFile) (ts1 ts2 : List Tok) :
    (processColumns w colSize byteSwap vMin vMax cols raw infile (ts1 ++ ts2)).ts =
      ts1 ++ (processColumns w colSize byteSwap vMin vMax cols raw infile ts2).ts := by
  induction cols generalizing raw infile ts2 with
  | nil => simp [processColumns]
  | cons col rest ih =>
    unfold processColumns
    cases infile.read (colSize.getD col 0) with
    | none => rfl
    | some r =>
      obtain ⟨data, infile'⟩ := r
      simp only
      split
      · rw [List.append_assoc, ih]
      · rw [List.append_assoc, ih]

/-- Read without error, the column loop writes the same text on two files whose
next bytes agree on the bytes the columns ask for. -/
theorem processColumns_prefix (w : Window) (colSize : List Nat) (byteSwap : Bool) (vMin vMax : ℚ)
    (cols : List Nat) (raw : raw2quint64) (f g : QFile) (ts : List Tok) (m : Nat)
    (hf : ∀ p, f.readError p = false) (hg : ∀ p, g.readError p = false)
    (hrest : g.data.drop g.pos = (f.data.drop f.pos).take m)
    (hsum : (cols.map (fun col => colSize.getD col 0)).sum ≤ m) :
    (processColumns w colSize byteSwap vMin vMax cols raw f ts).ts =
      (processColumns w colSize byteSwap vMin vMax cols raw g ts).ts := by
  induction cols generalizing raw f g ts m with
  | nil => rfl
  | cons col rest ih =>
    simp only [List.map_cons, List.sum_cons] at hsum
    have hn : colSize.getD col 0 ≤ m := by omega
    have hdata : (g.data.drop g.pos).take (colSize.getD col 0) =
        (f.data.drop f.pos).take (colSize.getD col 0) := by
      rw [hrest, List.take_take, Nat.min_eq_left hn]
    have hlen : ((f.data.drop f.pos).take (colSize.getD col 0)).length ≤ colSize.getD col 0 :=
      List.length_take_le _ _
    unfold processColumns
    rw [QFile_read_ok f _ (hf _), QFile_read_ok g _ (hg _), hdata]
    simp only
    have hnext : ∀ ts',
        (processColumns w colSize byteSwap vMin vMax rest
          (decodeColumn raw ((f.data.drop f.pos).take (colSize.getD col 0))
            (colSize.getD col 0) byteSwap)
          { f with pos := f.pos + ((f.data.drop f.pos).take (colSize.getD col 0)).length }
          ts').ts =
        (processColumns w colSize byteSwap vMin vMax rest
          (decodeColumn raw ((f.data.drop f.pos).take (colSize.getD col 0))
            (colSize.getD col 0) byteSwap)
          { g with pos := g.pos + ((f.data.drop f.pos).take (colSize.getD col 0)).length }
          ts').ts := by
      intro ts'
      refine ih _ ⟨f.data, _, f.readError⟩ ⟨g.data, _, g.readError⟩ _
        (m - ((f.data.drop f.pos).take (colSize.getD col 0)).length) hf hg ?_ ?_
      · show g.data.drop (g.pos + _) = (f.data.drop (f.pos + _)).take _
        rw [← List.drop_drop, ← List.drop_drop, hrest, List.drop_take]
      · omega
    split
    · exact hnext _
    · exact hnext _

/-- Read without error, the column loop never fails, leaves the bytes of the file
alone and advances the position by the bytes of one record, or to the end of
the file when fewer are left. -/
theorem processColumns_infile (w : Window) (colSize : List Nat) (byteSwap : Bool) (vMin vMax : ℚ)
    (cols : List Nat) (raw : raw2quint64) (f : QFile) (ts : List Tok)
    (hf : ∀ p, f.readError p = false) :
    (processColumns w colSize byteSwap vMin vMax cols raw f ts).readFailed = false ∧
    (processColumns w colSize byteSwap vMin vMax cols raw f ts).infile.data = f.data ∧
    (processColumns w colSize byteSwap vMin vMax cols raw f ts).infile.readError = f.readError ∧
    (processColumns w colSize byteSwap vMin vMax cols raw f ts).infile.pos =
      f.pos + min (cols.map (fun col => colSize.getD col 0)).sum (f.data.length - f.pos) := by
  induction cols generalizing raw f ts with
  | nil => simp [processColumns]
  | cons col rest ih =>
    unfold processColumns
    rw [QFile_read_ok f _ (hf _)]
    simp only
    have hlen : ((f.data.drop f.pos).take (colSize.getD col 0)).length =
        min (colSize.getD col 0) (f.data.length - f.pos) := by
      rw [List.length_take, List.length_drop]
    have hnext : ∀ ts',
        (processColumns w colSize byteSwap vMin vMax rest
          (decodeColumn raw ((f.data.drop f.pos).take (colSize.getD col 0))
            (colSize.getD col 0) byteSwap)
          { f with pos := f.pos + ((f.data.drop f.pos).take (colSize.getD col 0)).length }
          ts').readFailed = false ∧
        (processColumns w colSize byteSwap vMin vMax rest
          (decodeColumn raw ((f.data.drop f.pos).take (colSize.getD col 0))
            (colSize.getD col 0) byteSwap)
          { f with pos := f.pos + ((f.data.drop f.pos).take (colSize.getD col 0)).length }
          ts').infile.data = f.data ∧
        (processColumns w colSize byteSwap vMin vMax rest
          (decodeColumn raw ((f.data.drop f.pos).take (colSize.getD col 0))
            (colSize.getD col 0) byteSwap)
          { f with pos := f.pos + ((f.data.drop f.pos).take (colSize.getD col 0)).length }
          ts').infile.readError = f.readError ∧
        (processColumns w colSize byteSwap vMin vMax rest
          (decodeColumn raw ((f.data.drop f.pos).take (colSize.getD col 0))
            (colSize.getD col 0) byteSwap)
          { f with pos := f.pos + ((f.data.drop f.pos).take (colSize.getD col 0)).length }
          ts').infile.pos =
          f.pos + min ((col :: rest).map (fun col => colSize.getD col 0)).sum
            (f.data.length - f.pos) := by
      intro ts'
      obtain ⟨h1, h2, h3, h4⟩ := ih
        (decodeColumn raw ((f.data.drop f.pos).take (colSize.getD col 0))
          (colSize.getD col 0) byteSwap)
        ⟨f.data, f.pos + ((f.data.drop f.pos).take (colSize.getD col 0)).length, f.readError⟩
        ts' hf
      refine ⟨h1, h2, h3, ?_⟩
      rw [h4]
      simp only [List.map_cons, List.sum_cons, hlen]
      omega
    split
    · exact hnext _
    · exact hnext _

/-- The line that `csvProcessRow` adds, on a file read without error whose position
is the start of record `index`, is the line of that record. -/
theorem csvProcessRow_ts (w : Window) (ts : List Tok) (f : QFile) (index : Nat)
    (hf : ∀ p, f.readError p = false) (hpos : f.pos = index * rowDataSize w) :
    (csvProcessRow w ts f w.spinColumns
      ((List.range w.spinColumns).map (fun i => w.dataSpinNumBytes.getD i 0))
      w.checkBoxEndian w.minVoltage w.maxVoltage).ts =
      ts ++ rowText w (recordAt f.data (rowDataSize w) index) := by
  have h1 := processColumns_append w
    ((List.range w.spinColumns).map (fun i => w.dataSpinNumBytes.getD i 0))
    w.checkBoxEndian w.minVoltage w.maxVoltage (List.range w.spinColumns)
    (raw2quint64.ofUi64 0) f ts []
  rw [List.append_nil] at h1
  unfold csvProcessRow rowText csvProcessRow
  rw [h1]
  congr 1
  apply processColumns_prefix _ _ _ _ _ _ _ _ _ _ (rowDataSize w) hf (fun _ => rfl)
  · show (recordAt f.data (rowDataSize w) index).drop 0 = _
    rw [List.drop_zero, hpos]
    rfl
  · exact Nat.le_of_eq (rowDataSize_eq_sum w).symm

/-- The file after `csvProcessRow`, read without error: same bytes, and the
position moved by one record or to the end of the file. -/
theorem csvProcessRow_infile (w : Window) (ts : List Tok) (f : QFile)
    (hf : ∀ p, f.readError p = false) :
    (csvProcessRow w ts f w.spinColumns
      ((List.range w.spinColumns).map (fun i => w.dataSpinNumBytes.getD i 0))
      w.checkBoxEndian w.minVoltage w.maxVoltage).infile.data = f.data ∧
    (csvProcessRow w ts f w.spinColumns
      ((List.range w.spinColumns).map (fun i => w.dataSpinNumBytes.getD i 0))
      w.checkBoxEndian w.minVoltage w.maxVoltage).infile.readError = f.readError ∧
    (csvProcessRow w ts f w.spinColumns
      ((List.range w.spinColumns).map (fun i => w.dataSpinNumBytes.getD i 0))
      w.checkBoxEndian w.minVoltage w.maxVoltage).infile.pos =
      f.pos + min (rowDataSize w) (f.data.length - f.pos) := by
  obtain ⟨_, h2, h3, h4⟩ := processColumns_infile w
    ((List.range w.spinColumns).map (fun i => w.dataSpinNumBytes.getD i 0))
    w.checkBoxEndian w.minVoltage w.maxVoltage (List.range w.spinColumns)
    (raw2quint64.ofUi64 0) f ts hf
  rw [← rowDataSize_eq_sum] at h4
  exact ⟨h2, h3, h4⟩

/-- One complete pass of the loop on a file read without error and positioned at
the start of record `index`: the line of that record is appended, and the file
is left at the start of record `index + d`, or at or past its end when the
record was the last one. -/
theorem loopPass_record (w : Window) (wasCanceled : Nat → Bool) (d index : Nat) (s s' : RunState)
    (hd : 1 ≤ d) (hf : ∀ p, s.infile.readError p = false)
    (hpos : s.infile.pos = index * rowDataSize w)
    (hfit : s.infile.data.length + rowDataSize w * d < quint64Size)
    (h : loopPass w wasCanceled (dataToCsvLocals w d) s = Pass.again s') :
    s.infile.pos < s.infile.data.length ∧
    s'.ts = s.ts ++ rowText w (recordAt s.infile.data (rowDataSize w) index) ∧
    s'.infile.data = s.infile.data ∧ s'.infile.readError = s.infile.readError ∧
    (s'.infile.pos = (index + d) * rowDataSize w ∨
      (s.infile.data.length ≤ s'.infile.pos ∧
        s.infile.data.length < (index + d) * rowDataSize w)) ∧
    s'.cancelled = s.cancelled ∧ s'.outfileRemoved = s.outfileRemoved := by
  obtain ⟨hdata, herr, hp⟩ := csvProcessRow_infile w s.ts s.infile hf
  have hts := csvProcessRow_ts w s.ts s.infile index hf hpos
  unfold loopPass at h
  simp only [dataToCsvLocals] at h
  split at h
  · exact absurd h (by simp)
  · rename_i hend
    have hlt : s.infile.pos < s.infile.data.length := by
      unfold QFile.atEnd at hend
      simpa using hend
    split at h
    · exact absurd h (by simp)
    · split at h
      · exact absurd h (by simp)
      · simp only [Pass.again.injEq] at h
        subst h
        have hmul : rowDataSize w * (d - 1) + rowDataSize w = rowDataSize w * d := by
          obtain ⟨e, rfl⟩ : ∃ e, d = e + 1 := ⟨d - 1, by omega⟩
          rw [Nat.add_sub_cancel, Nat.mul_succ]
        have hadd : (index + d) * rowDataSize w =
            index * rowDataSize w + rowDataSize w * d := by
          rw [Nat.add_mul, Nat.mul_comm d]
        refine ⟨hlt, hts, ?_, ?_, ?_, rfl, rfl⟩
        · simp only
          split
          · exact hdata
          · exact hdata
        · simp only
          split
          · exact herr
          · exact herr
        · simp only
          split
          · simp only [QFile.seek]
            rw [hp, Nat.mod_eq_of_lt (show rowDataSize w * (d - 1) < quint64Size by omega),
              Nat.mod_eq_of_lt (by omega)]
            omega
          · rename_i hd1
            have hd' : d = 1 := by omega
            subst hd'
            rw [hp]
            omega

/-- One more pass after `k` passes. -/
theorem afterPasses_succ (w : Window) (wasCanceled : Nat → Bool) (l : Locals) (k : Nat)
    (s0 : RunState) :
    afterPasses w wasCanceled l (k + 1) s0 =
      (afterPasses w wasCanceled l k s0).bind (fun s =>
        match loopPass w wasCanceled l s with
        | Pass.exit _ => none
        | Pass.again s' => some s') := by
  induction k generalizing s0 with
  | zero =>
    simp only [afterPasses, Option.some_bind]
  | succ n ih =>
    rw [afterPasses]
    cases hp : loopPass w wasCanceled l s0 with
    | exit t => simp [afterPasses, hp]
    | again t =>
      simp only
      rw [ih t]
      conv_rhs => rw [afterPasses, hp]

/-- The state after `k + 1` passes comes from a state after `k` passes by one pass. -/
theorem afterPasses_succ_some (w : Window) (wasCanceled : Nat → Bool) (l : Locals) (k : Nat)
    (s0 s' : RunState) (h : afterPasses w wasCanceled l (k + 1) s0 = some s') :
    ∃ s, afterPasses w wasCanceled l k s0 = some s ∧ loopPass w wasCanceled l s = Pass.again s' := by
  rw [afterPasses_succ] at h
  cases hk : afterPasses w wasCanceled l k s0 with
  | none => rw [hk] at h; exact absurd h (by simp)
  | some s =>
    rw [hk, Option.some_bind] at h
    refine ⟨s, rfl, ?_⟩
    cases hp : loopPass w wasCanceled l s with
    | exit t => rw [hp] at h; exact absurd h (by simp)
    | again t =>
      rw [hp] at h
      simp only [Option.some.injEq] at h
      rw [h]

/-- A pass after `k` passes gives the state after `k + 1` passes. -/
theorem afterPasses_step (w : Window) (wasCanceled : Nat → Bool) (l : Locals) (k : Nat)
    (s0 s s' : RunState) (hk : afterPasses w wasCanceled l k s0 = some s)
    (hp : loopPass w wasCanceled l s = Pass.again s') :
    afterPasses w wasCanceled l (k + 1) s0 = some s' := by
  rw [afterPasses_succ, hk, Option.some_bind, hp]

/-- The loop ends in the state in which a pass leaves it, after some number of
complete passes. -/
theorem runLoop_eq_some (w : Window) (wasCanceled : Nat → Bool) (l : Locals) (fuel : Nat)
    (s0 sf : RunState) (h : runLoop w wasCanceled l fuel s0 = some sf) :
    ∃ n s, n < fuel ∧ afterPasses w wasCanceled l n s0 = some s ∧
      loopPass w wasCanceled l s = Pass.exit sf := by
  induction fuel generalizing s0 with
  | zero => exact absurd h (by simp [runLoop])
  | succ m ih =>
    unfold runLoop at h
    cases hp : loopPass w wasCanceled l s0 with
    | exit t =>
      rw [hp] at h
      simp only [Option.some.injEq] at h
      subst h
      exact ⟨0, s0, Nat.succ_pos _, rfl, hp⟩
    | again t =>
      rw [hp] at h
      obtain ⟨n, s, hn, hs, he⟩ := ih t h
      refine ⟨n + 1, s, Nat.succ_lt_succ hn, ?_, he⟩
      rw [afterPasses, hp]
      exact hs

/-- When a pass leaves the loop after `n` complete passes, the loop run with more
fuel than `n` ends in that state. -/
theorem runLoop_of_afterPasses (w : Window) (wasCanceled : Nat → Bool) (l : Locals) (n fuel : Nat)
    (s0 s sf : RunState) (hs : afterPasses w wasCanceled l n s0 = some s)
    (he : loopPass w wasCanceled l s = Pass.exit sf) (hfuel : n < fuel) :
    runLoop w wasCanceled l fuel s0 = some sf := by
  induction n generalizing s0 fuel with
  | zero =>
    obtain ⟨m, rfl⟩ : ∃ m, fuel = m + 1 := ⟨fuel - 1, by omega⟩
    simp only [afterPasses, Option.some.injEq] at hs
    subst hs
    rw [runLoop, he]
  | succ k ih =>
    obtain ⟨m, rfl⟩ : ∃ m, fuel = m + 1 := ⟨fuel - 1, by omega⟩
    rw [afterPasses] at hs
    cases hp : loopPass w wasCanceled l s0 with
    | exit t => rw [hp] at hs; exact absurd hs (by simp)
    | again t =>
      rw [hp] at hs
      rw [runLoop, hp]
      exact ih m t hs (by omega)

/-- The state after `k` passes over a file read without error: the text is the
text at the start followed by the lines of the records 0, `d`, ..., `(k - 1) * d`,
and the file stands at the start of record `k * d` unless the last record read
was cut short by the end of the file. -/
theorem afterPasses_trace (w : Window) (wasCanceled : Nat → Bool) (d : Nat) (infile : QFile)
    (hd : 1 ≤ d) (hpos : infile.pos = 0) (herr : ∀ p, infile.readError p = false)
    (hfit : infile.data.length + rowDataSize w * d < quint64Size) (k : Nat) (s : RunState)
    (h : afterPasses w wasCanceled (dataToCsvLocals w d) k (dataToCsvStart w infile) = some s) :
    s.ts = (dataToCsvStart w infile).ts ++ rowsText w infile.data d k ∧
    s.infile.data = infile.data ∧ s.infile.readError = infile.readError ∧
    (s.infile.pos = k * d * rowDataSize w ∨
      (infile.data.length ≤ s.infile.pos ∧ infile.data.length < k * d * rowDataSize w)) ∧
    s.cancelled = false ∧ s.outfileRemoved = false := by
  induction k generalizing s with
  | zero =>
    simp only [afterPasses, Option.some.injEq] at h
    subst h
    refine ⟨by simp [rowsText], rfl, rfl, Or.inl ?_, rfl, rfl⟩
    rw [Nat.zero_mul, Nat.zero_mul]
    exact hpos
  | succ n ih =>
    obtain ⟨t, ht, hp⟩ := afterPasses_succ_some _ _ _ _ _ _ h
    obtain ⟨i1, i2, i3, i4, i5, i6⟩ := ih t ht
    have hlt : t.infile.pos < t.infile.data.length := by
      unfold loopPass at hp
      split at hp
      · exact absurd hp (by simp)
      · rename_i hend
        unfold QFile.atEnd at hend
        simpa using hend
    have hpos' : t.infile.pos = n * d * rowDataSize w := by
      rcases i4 with h4 | ⟨h4, _⟩
      · exact h4
      · rw [i2] at hlt; omega
    have herr' : ∀ p, t.infile.readError p = false := by rw [i3]; exact herr
    obtain ⟨_, p2, p3, p4, p5, p6, p7⟩ := loopPass_record w wasCanceled d (n * d) t s hd herr'
      hpos' (by rw [i2]; exact hfit) hp
    have hidx : (n + 1) * d = n * d + d := Nat.succ_mul n d
    refine ⟨?_, ?_, ?_, ?_, ?_, ?_⟩
    · rw [p2, i1, i2, rowsText, List.append_assoc]
    · rw [p3, i2]
    · rw [p4, i3]
    · rw [hidx, ← i2]; exact p5
    · rw [p6, i5]
    · rw [p7, i6]

/-- The search loop never returns 0. -/
theorem divisorSearch_pos (rows rowLimit fuel divider d : Nat)
    (h : divisorSearch rows rowLimit fuel divider = some d) : 1 ≤ d := by
  induction fuel generalizing divider with
  | zero => exact absurd h (by simp [divisorSearch])
  | succ n ih =>
    unfold divisorSearch at h
    split at h
    · exact absurd h (by simp)
    · split at h
      · exact ih _ h
      · simp only [Option.some.injEq] at h
        omega

/-- The divisor is at least 1. -/
theorem infileRowLimitDivisor_pos (w : Window) (disk : Disk) (d : Nat)
    (h : infileRowLimitDivisor w disk = some d) : 1 ≤ d := by
  unfold infileRowLimitDivisor at h
  split at h
  · exact absurd h (by simp)
  · unfold rowLimitDivisor at h
    split at h
    · simp only at h
      split at h
      · exact absurd h (by simp)
      · exact divisorSearch_pos _ _ _ _ _ h
    · simp only [Option.some.injEq] at h
      omega

/-- The input file is handed over at position 0 with the read errors of the environment. -/
theorem csvOpenFiles_infile (w : Window) (env : Env) :
    (csvOpenFiles w env).infile.pos = 0 ∧ (csvOpenFiles w env).infile.readError = env.readError := by
  unfold csvOpenFiles
  split
  · exact ⟨rfl, rfl⟩
  · split
    · simp only
      split
      · exact ⟨rfl, rfl⟩
      · exact ⟨rfl, rfl⟩
    · exact ⟨rfl, rfl⟩

/-- With 5 records of one byte and a divisor of 2 the loop makes three passes,
over the records 0, 2 and 4. -/
theorem afterPasses_stride_example :
    (afterPasses limit50 (quietEnv [10, 20, 30, 40, 50]).wasCanceled (dataToCsvLocals limit50 2) 3
      (dataToCsvStart limit50
        (csvOpenFiles limit50 (quietEnv [10, 20, 30, 40, 50])).infile)).map (fun s => s.ts) =
      some [Tok.integer 10, Tok.comma, Tok.endl, Tok.integer 30, Tok.comma, Tok.endl,
        Tok.integer 50, Tok.comma, Tok.endl] ∧
    rowsText limit50 [10, 20, 30, 40, 50] 2 3 =
      [Tok.integer 10, Tok.comma, Tok.endl, Tok.integer 30, Tok.comma, Tok.endl,
        Tok.integer 50, Tok.comma, Tok.endl] := by
  decide

/-! ## Complete runs -/

/-- In a valid window every displayed column has between 1 and 8 bytes. -/
theorem valid_numBytes (w : Window) (hw : w.Valid) (index : Nat) (h : index < w.spinColumns) :
    1 ≤ w.dataSpinNumBytes.getD index 0 ∧ w.dataSpinNumBytes.getD index 0 ≤ 8 := by
  obtain ⟨_, _, h3, _, _, _, h7, _, _⟩ := hw
  have hlen : index < w.dataSpinNumBytes.length := by omega
  have hmem : w.dataSpinNumBytes.getD index 0 ∈ w.dataSpinNumBytes.take w.spinColumns := by
    rw [List.getD_eq_getElem _ _ hlen, List.mem_take_iff_getElem]
    exact ⟨index, by omega, rfl⟩
  exact h7 _ hmem

theorem sum_map_bounds (f : Nat → Nat) (l : List Nat) (lo hi : Nat)
    (h : ∀ i ∈ l, lo ≤ f i ∧ f i ≤ hi) :
    l.length * lo ≤ (l.map f).sum ∧ (l.map f).sum ≤ l.length * hi := by
  induction l with
  | nil => simp
  | cons x xs ih =>
    obtain ⟨i1, i2⟩ := ih (fun i hi => h i (List.mem_cons_of_mem _ hi))
    obtain ⟨h1, h2⟩ := h x (List.mem_cons_self _ _)
    simp only [List.map_cons, List.sum_cons, List.length_cons, Nat.succ_mul]
    omega

/-- In a valid window a record has between 1 and 2040 bytes. -/
theorem rowDataSize_bounds (w : Window) (hw : w.Valid) :
    1 ≤ rowDataSize w ∧ rowDataSize w ≤ 2040 := by
  have hsum : rowDataSize w =
      ((List.range w.spinColumns).map (fun i => w.dataSpinNumBytes.getD i 0)).sum := by
    unfold rowDataSize
    rw [foldl_add_eq_sum, Nat.zero_add]
  obtain ⟨h1, h2⟩ := sum_map_bounds (fun i => w.dataSpinNumBytes.getD i 0)
    (List.range w.spinColumns) 1 8
    (fun i hi => valid_numBytes w hw i (List.mem_range.1 hi))
  rw [List.length_range] at h1 h2
  obtain ⟨v1, v2, _⟩ := hw
  omega

/-- A pass runs to its end when the file is not at its end, the row limit is not
reached and nobody has cancelled. -/
theorem loopPass_again_of (w : Window) (wasCanceled : Nat → Bool) (l : Locals) (s : RunState)
    (hend : s.infile.atEnd = false) (hlim : ¬ (l.rowLimit > 0 ∧ s.rowsOutput ≥ l.rowLimit))
    (hc : ¬ (s.rowsOutput % 1024 = 0 ∧ wasCanceled s.rowsOutput = true)) :
    ∃ s', loopPass w wasCanceled l s = Pass.again s' := by
  unfold loopPass
  rw [if_neg (by simp [hend]), if_neg hlim, if_neg hc]
  exact ⟨_, rfl⟩

/-- A pass leaves the loop, and the state as it is, at the end of the file and at
the row limit. -/
theorem loopPass_exit_of (w : Window) (wasCanceled : Nat → Bool) (l : Locals) (s : RunState)
    (h : s.infile.atEnd = true ∨ (l.rowLimit > 0 ∧ s.rowsOutput ≥ l.rowLimit)) :
    loopPass w wasCanceled l s = Pass.exit s := by
  unfold loopPass
  by_cases hend : s.infile.atEnd = true
  · rw [if_pos hend]
  · rw [if_neg hend]
    rcases h with h | h
    · exact absurd h hend
    · rw [if_pos h]

/-- The line of a record ends exactly one line. -/
theorem rowText_count (w : Window) (record : List Byte) :
    (rowText w record).count Tok.endl = 1 := by
  unfold rowText csvProcessRow
  obtain ⟨hfail, _⟩ := processColumns_infile w
    ((List.range w.spinColumns).map (fun index => w.dataSpinNumBytes.getD index 0))
    w.checkBoxEndian w.minVoltage w.maxVoltage (List.range w.spinColumns)
    (raw2quint64.ofUi64 0) ⟨record, 0, fun _ => false⟩ [] (fun _ => rfl)
  rcases processColumns_lines w
    ((List.range w.spinColumns).map (fun index => w.dataSpinNumBytes.getD index 0))
    w.checkBoxEndian w.minVoltage w.maxVoltage (List.range w.spinColumns)
    (raw2quint64.ofUi64 0) ⟨record, 0, fun _ => false⟩ [] with ⟨h, _⟩ | ⟨_, pre, hpre, hc⟩
  · rw [hfail] at h; exact absurd h (by simp)
  · rw [hpre, List.count_append, hc]
    simp

/-- The lines of `n` records are `n` lines. -/
theorem rowsText_count (w : Window) (data : List Byte) (d n : Nat) :
    (rowsText w data d n).count Tok.endl = n := by
  induction n with
  | zero => rfl
  | succ k ih => rw [rowsText, List.count_append, ih, rowText_count]

/-- In a valid window the row counter starts at 1 with the line of column names
and at 0 without. -/
theorem dataToCsvStart_rowsOutput (w : Window) (hw : w.Valid) (infile : QFile) :
    (dataToCsvStart w infile).rowsOutput = (if w.checkBoxWriteColNames then 1 else 0) ∧
    (dataToCsvStart w infile).infile = infile := by
  have hn := csvWriteColumnNames_valid w hw []
  unfold dataToCsvStart
  simp only [hn, and_true]

/-- A run that nobody cancels, over a file read without error.  If the first `n`
retained records all start inside the file and below the row limit, and the
file ends or the row limit is reached after them, the loop makes exactly `n`
passes: it writes the lines of the records 0, `d`, ..., `(n - 1) * d` after the
text it started with and counts `n` rows. -/
theorem runLoop_rows (w : Window) (wasCanceled : Nat → Bool) (d : Nat) (infile : QFile) (n : Nat)
    (hd : 1 ≤ d) (hpos : infile.pos = 0) (herr : ∀ p, infile.readError p = false)
    (hfit : infile.data.length + rowDataSize w * d < quint64Size)
    (hcancel : ∀ r, wasCanceled r = false)
    (hgo : ∀ k, k < n → k * d * rowDataSize w < infile.data.length ∧
      ¬ (0 < w.comboRowLimit ∧ w.comboRowLimit ≤ (dataToCsvStart w infile).rowsOutput + k))
    (hstop : infile.data.length ≤ n * d * rowDataSize w ∨
      (0 < w.comboRowLimit ∧ w.comboRowLimit ≤ (dataToCsvStart w infile).rowsOutput + n))
    (hcount : (dataToCsvStart w infile).rowsOutput + n < quint64Size)
    (fuel : Nat) (hfuel : n < fuel) :
    ∃ s, runLoop w wasCanceled (dataToCsvLocals w d) fuel (dataToCsvStart w infile) = some s ∧
      s.ts = (dataToCsvStart w infile).ts ++ rowsText w infile.data d n ∧
      s.rowsOutput = (dataToCsvStart w infile).rowsOutput + n ∧
      s.cancelled = false ∧ s.outfileRemoved = false := by
  have hpasses : ∀ k, k ≤ n →
      ∃ s, afterPasses w wasCanceled (dataToCsvLocals w d) k (dataToCsvStart w infile) = some s ∧
        s.rowsOutput = (dataToCsvStart w infile).rowsOutput + k := by
    intro k
    induction k with
    | zero => exact fun _ => ⟨_, rfl, rfl⟩
    | succ j ih =>
      intro hj
      obtain ⟨s, hs, hr⟩ := ih (by omega)
      obtain ⟨g1, g2⟩ := hgo j (by omega)
      obtain ⟨_, i2, _, i4, _, _⟩ :=
        afterPasses_trace w wasCanceled d infile hd hpos herr hfit j s hs
      have hend : s.infile.atEnd = false := by
        unfold QFile.atEnd
        rw [i2]
        rcases i4 with h4 | ⟨_, h4⟩
        · rw [h4]; simpa using g1
        · omega
      obtain ⟨s', hp⟩ := loopPass_again_of w wasCanceled (dataToCsvLocals w d) s hend
        (by rw [hr]; exact fun h => g2 ⟨h.1, h.2⟩) (by rw [hcancel]; simp)
      obtain ⟨_, a2, _⟩ := loopPass_again _ _ _ _ _ hp
      refine ⟨s', afterPasses_step _ _ _ _ _ _ _ hs hp, ?_⟩
      rw [a2, hr, Nat.mod_eq_of_lt (by omega)]
      omega
  obtain ⟨s, hs, hr⟩ := hpasses n (Nat.le_refl _)
  obtain ⟨i1, i2, _, i4, i5, i6⟩ :=
    afterPasses_trace w wasCanceled d infile hd hpos herr hfit n s hs
  have hexit : loopPass w wasCanceled (dataToCsvLocals w d) s = Pass.exit s := by
    apply loopPass_exit_of
    rcases hstop with h | h
    · left
      unfold QFile.atEnd
      rw [i2]
      rcases i4 with h4 | ⟨h4, _⟩
      · rw [h4]; simpa using h
      · simpa using h4
    · right
      rw [hr]
      exact ⟨h.1, h.2⟩
  exact ⟨s, runLoop_of_afterPasses _ _ _ n fuel _ s s hs hexit hfuel, i1, hr, i5, i6⟩

/-- An input of exactly 200 complete records converted in a valid window under a
row limit of 50, without cancellation or read error: the divisor is 4, and the
run writes the line of column names, if asked for, and then the lines of the
records 0, 4, 8, ...: 50 of them without the line of column names, 49 with it.
The row counter ends at 50 either way. -/
theorem dataToCsv_full_200 (w : Window) (env : Env) (data : List Byte) (hw : w.Valid)
    (hlimit : w.comboRowLimit = 50) (hopen : (csvOpenFiles w env).errorState = false)
    (hdata : (csvOpenFiles w env).infile.data = data)
    (hrows : (csvOpenFiles w env).disk.openRead (trimmed w.comboInfile) = some data)
    (hlen : data.length = 200 * rowDataSize w) (herr : ∀ p, env.readError p = false)
    (hcancel : ∀ r, env.wasCanceled r = false) (fuel : Nat) (hfuel : 50 < fuel) :
    infileRowLimitDivisor w (csvOpenFiles w env).disk = some 4 ∧
    ∃ o, dataToCsv w env fuel = some o ∧
      o.ts = (dataToCsvStart w (csvOpenFiles w env).infile).ts ++
        rowsText w data 4 (if w.checkBoxWriteColNames then 49 else 50) ∧
      (rowsText w data 4 (if w.checkBoxWriteColNames then 49 else 50)).count Tok.endl =
        (if w.checkBoxWriteColNames then 49 else 50) ∧
      o.rowsOutput = 50 ∧ o.cancelled = false ∧ o.statusBarMessage = "Processing complete." := by
  obtain ⟨hrs1, hrs2⟩ := rowDataSize_bounds w hw
  have hq : 1000000 < quint64Size := by decide
  obtain ⟨hpos, hre⟩ := csvOpenFiles_infile w env
  have herr' : ∀ p, (csvOpenFiles w env).infile.readError p = false := by rw [hre]; exact herr
  have hnum : infileNumberRows w (csvOpenFiles w env).disk = some 200 :=
    infileNumberRows_full w _ data 200 hrows hrs1 hlen (by rw [hlen]; omega)
  have hdiv : infileRowLimitDivisor w (csvOpenFiles w env).disk = some 4 := by
    rw [infileRowLimitDivisor_of_rows _ _ _ hnum, hlimit,
      rowLimitDivisor_eq 50 200 _ (by decide) (by decide) (by decide)]
    cases w.checkBoxWriteColNames <;> decide
  obtain ⟨hstart, _⟩ := dataToCsvStart_rowsOutput w hw (csvOpenFiles w env).infile
  have hn : (dataToCsvStart w (csvOpenFiles w env).infile).rowsOutput +
      (if w.checkBoxWriteColNames then 49 else 50) = 50 := by
    rw [hstart]; cases w.checkBoxWriteColNames <;> rfl
  have hn50 : (if w.checkBoxWriteColNames then 49 else 50) ≤ 50 := by
    cases w.checkBoxWriteColNames <;> decide
  obtain ⟨s, hs, s1, s2, s3, s4⟩ := runLoop_rows w env.wasCanceled 4 (csvOpenFiles w env).infile
    (if w.checkBoxWriteColNames then 49 else 50) (by decide) hpos herr'
    (by rw [hdata, hlen]; omega) hcancel
    (fun k hk => by
      refine ⟨?_, fun h => ?_⟩
      · rw [hdata, hlen]
        exact Nat.mul_lt_mul_of_pos_right (by omega) hrs1
      · rw [hlimit] at h; omega)
    (Or.inr (by rw [hlimit, hn]; exact ⟨by decide, Nat.le_refl _⟩))
    (by rw [hn]; decide) fuel (by omega)
  refine ⟨hdiv, ?_⟩
  unfold dataToCsv
  simp only [hopen, Bool.false_eq_true, if_false, hdiv, hs, s3, s4]
  refine ⟨_, rfl, ?_, rowsText_count _ _ _ _, ?_, rfl, rfl⟩
  · simp only; rw [s1, hdata]
  · simp only; rw [s2, hn]

/-- The environment `quietEnv data` lets `limit50Names` open its files. -/
theorem quietEnv_opens_names (data : List Byte) :
    (csvOpenFiles limit50Names (quietEnv data)).errorState = false ∧
    (csvOpenFiles limit50Names (quietEnv data)).infile.data = data ∧
    (csvOpenFiles limit50Names (quietEnv data)).disk.openRead (trimmed limit50Names.comboInfile) =
      some data :=
  ⟨rfl, rfl, rfl⟩

/-- The environment `quietEnv data` lets `limit50` open its files. -/
theorem quietEnv_opens (data : List Byte) :
    (csvOpenFiles limit50 (quietEnv data)).errorState = false ∧
    (csvOpenFiles limit50 (quietEnv data)).infile.data = data ∧
    (csvOpenFiles limit50 (quietEnv data)).disk.openRead (trimmed limit50.comboInfile) =
      some data :=
  ⟨rfl, rfl, rfl⟩

/-- C15 as stated fails with the line of column names: for 200 records of one
byte and a row limit of 50 the divisor is 4, and the run writes the line of
column names followed by the lines of 49 records, not 50; the row counter,
which counts the line of column names, stops the loop at 50. -/
theorem dataToCsv_200_records_with_names :
    limit50Names.checkBoxWriteColNames = true ∧ limit50Names.comboRowLimit = 50 ∧
    (List.replicate 200 (0 : Byte)).length = 200 * rowDataSize limit50Names ∧
    infileRowLimitDivisor limit50Names
      (csvOpenFiles limit50Names (quietEnv (List.replicate 200 0))).disk = some 4 ∧
    ∃ o, dataToCsv limit50Names (quietEnv (List.replicate 200 0)) 51 = some o ∧
      o.ts = [Tok.text "count", Tok.comma, Tok.endl] ++
        rowsText limit50Names (List.replicate 200 0) 4 49 ∧
      (rowsText limit50Names (List.replicate 200 0) 4 49).count Tok.endl = 49 ∧
      o.rowsOutput = 50 := by
  have hlen : (List.replicate 200 (0 : Byte)).length = 200 * rowDataSize limit50Names := by
    rw [List.length_replicate]; decide
  obtain ⟨h1, h2, h3⟩ := quietEnv_opens_names (List.replicate 200 0)
  obtain ⟨hdiv, o, ho, t1, t2, t3, _, _⟩ := dataToCsv_full_200 limit50Names
    (quietEnv (List.replicate 200 0)) (List.replicate 200 0) (by decide) rfl h1 h2 h3 hlen
    (fun _ => rfl) (fun _ => rfl) 51 (by decide)
  exact ⟨rfl, rfl, hlen, hdiv, o, ho, t1, t2, t3⟩

/-- C15 (amended): for an input of exactly 200 complete records and a row
limit of 50, converted without cancellation or read error,
`infileRowLimitDivisor` returns 4 and `dataToCsv` writes the lines of the
records 0, 4, 8, ...: exactly 50 data rows without the line of column names,
and exactly 49 data rows after the line of column names with it (50 lines in
all either way). -/
theorem dataToCsv_200_records (w : Window) (env : Env) (data : List Byte) (hw : w.Valid)
    (hlimit : w.comboRowLimit = 50) (hopen : (csvOpenFiles w env).errorState = false)
    (hdata : (csvOpenFiles w env).infile.data = data)
    (hrows : (csvOpenFiles w env).disk.openRead (trimmed w.comboInfile) = some data)
    (hlen : data.length = 200 * rowDataSize w) (herr : ∀ p, env.readError p = false)
    (hcancel : ∀ r, env.wasCanceled r = false) (fuel : Nat) (hfuel : 50 < fuel) :
    infileRowLimitDivisor w (csvOpenFiles w env).disk = some 4 ∧
    ∃ o, dataToCsv w env fuel = some o ∧
      o.ts = (dataToCsvStart w (csvOpenFiles w env).infile).ts ++
        rowsText w data 4 (if w.checkBoxWriteColNames then 49 else 50) ∧
      (rowsText w data 4 (if w.checkBoxWriteColNames then 49 else 50)).count Tok.endl =
        (if w.checkBoxWriteColNames then 49 else 50) ∧
      o.rowsOutput = 50 ∧ o.cancelled = false ∧ o.statusBarMessage = "Processing complete." :=
  dataToCsv_full_200 w env data hw hlimit hopen hdata hrows hlen herr hcancel fuel hfuel

/-- Witness for C15 (amended): 200 records of one byte, without the line of
column names. -/
theorem dataToCsv_200_records_witness :
    infileRowLimitDivisor limit50 (csvOpenFiles limit50 (quietEnv (List.replicate 200 0))).disk =
      some 4 ∧
    ∃ o, dataToCsv limit50 (quietEnv (List.replicate 200 0)) 51 = some o ∧
      o.ts = (dataToCsvStart limit50
          (csvOpenFiles limit50 (quietEnv (List.replicate 200 0))).infile).ts ++
        rowsText limit50 (List.replicate 200 0) 4
          (if limit50.checkBoxWriteColNames then 49 else 50) ∧
      (rowsText limit50 (List.replicate 200 0) 4
          (if limit50.checkBoxWriteColNames then 49 else 50)).count Tok.endl =
        (if limit50.checkBoxWriteColNames then 49 else 50) ∧
      o.rowsOutput = 50 ∧ o.cancelled = false ∧ o.statusBarMessage = "Processing complete." :=
  dataToCsv_200_records limit50 (quietEnv (List.replicate 200 0)) (List.replicate 200 0)
    (by decide) rfl (quietEnv_opens _).1 (quietEnv_opens _).2.1 (quietEnv_opens _).2.2
    (by rw [List.length_replicate]; decide) (fun _ => rfl) (fun _ => rfl) 51 (by decide)

/-- C17: when the loop of `dataToCsv` reaches a check point after `n` passes
(the file is not at its end, the row limit is not reached and `rowsOutput` is a
multiple of 1024) and `progress.wasCanceled()` answers yes, the run ends there:
its text and its row counter are those of that moment, it is marked cancelled,
the status bar reads "Processing cancelled." and not "Processing complete.",
and the output file no longer exists. -/
theorem dataToCsv_cancelled (w : Window) (env : Env) (d n fuel : Nat) (s : RunState)
    (hopen : (csvOpenFiles w env).errorState = false)
    (hdiv : infileRowLimitDivisor w (csvOpenFiles w env).disk = some d)
    (hs : afterPasses w env.wasCanceled (dataToCsvLocals w d) n
      (dataToCsvStart w (csvOpenFiles w env).infile) = some s)
    (hend : s.infile.atEnd = false)
    (hlim : ¬ (0 < w.comboRowLimit ∧ w.comboRowLimit ≤ s.rowsOutput))
    (hcheck : s.rowsOutput % 1024 = 0) (hcancel : env.wasCanceled s.rowsOutput = true)
    (hfuel : n < fuel) :
    ∃ o, dataToCsv w env fuel = some o ∧ o.ts = s.ts ∧ o.rowsOutput = s.rowsOutput ∧
      o.cancelled = true ∧ o.statusBarMessage = "Processing cancelled." ∧
      o.disk.content (o.disk.canonicalFilePath w.comboOutfile) = none := by
  have hexit : loopPass w env.wasCanceled (dataToCsvLocals w d) s =
      Pass.exit { s with
        cancelled := true
        statusBarMessage := "Processing cancelled."
        outfileRemoved := true } := by
    unfold loopPass
    rw [if_neg (by simp [hend]), if_neg (fun h => hlim ⟨h.1, h.2⟩), if_pos ⟨hcheck, hcancel⟩]
  have hrun := runLoop_of_afterPasses _ _ _ n fuel _ s _ hs hexit hfuel
  unfold dataToCsv
  simp only [hopen, Bool.false_eq_true, if_false, hdiv, hrun]
  refine ⟨_, rfl, rfl, rfl, rfl, rfl, ?_⟩
  simp [Disk.remove]

/-- Witness for C17: cancellation at the first check point, before any row. -/
theorem dataToCsv_cancelled_witness :
    ∃ o, dataToCsv limit50 (cancellingEnv [1, 2, 3]) 1 = some o ∧
      o.ts = (dataToCsvStart limit50
        (csvOpenFiles limit50 (cancellingEnv [1, 2, 3])).infile).ts ∧
      o.rowsOutput = (dataToCsvStart limit50
        (csvOpenFiles limit50 (cancellingEnv [1, 2, 3])).infile).rowsOutput ∧
      o.cancelled = true ∧ o.statusBarMessage = "Processing cancelled." ∧
      o.disk.content (o.disk.canonicalFilePath limit50.comboOutfile) = none :=
  dataToCsv_cancelled limit50 (cancellingEnv [1, 2, 3]) 1 0 1
    (dataToCsvStart limit50 (csvOpenFiles limit50 (cancellingEnv [1, 2, 3])).infile)
    (by decide) (by decide) rfl (by decide) (by decide) (by decide) (by decide) (by decide)

/-! ## The number read from a text -/

/-- The text of the row limit "65536 (OpenOffice, Excel)" reads as 65536, and
"No limit" as 0. -/
theorem getUint64_examples :
    getUint64 "65536 (OpenOffice, Excel)" defaultMaxDigits = 65536 ∧
    getUint64 "No limit" defaultMaxDigits = 0 ∧ getUint64 "" defaultMaxDigits = 0 ∧
    getUint64 "123456" 3 = 123 := by
  decide

/-! ## The search for the divisor -/

/-- Where decimation applies, the search starts at a divisor of at least 1 whose
quotient exceeds the row limit, and the quotient of the next divisor does not. -/
theorem divisor_start_facts (rows rowLimit : Nat) (hlt : rowLimit < rows) :
    1 ≤ rows / (rowLimit + 1) ∧ rows / (rows / (rowLimit + 1)) > rowLimit ∧
    ¬ rows / (rows / (rowLimit + 1) + 1) > rowLimit := by
  have hpos : 0 < rowLimit + 1 := Nat.succ_pos _
  have hstart : 1 ≤ rows / (rowLimit + 1) := by
    rw [Nat.le_div_iff_mul_le hpos]; omega
  refine ⟨hstart, ?_, ?_⟩
  · apply Nat.lt_of_succ_le
    rw [Nat.le_div_iff_mul_le (by omega), Nat.mul_comm]
    exact Nat.div_mul_le_self rows (rowLimit + 1)
  · rw [gt_iff_lt, not_lt, ← Nat.lt_succ_iff, Nat.div_lt_iff_lt_mul (Nat.succ_pos _),
      Nat.mul_comm]
    exact (Nat.div_lt_iff_lt_mul hpos).1 (Nat.lt_succ_self _)

/-- C22: whenever decimation applies (0 < rowLimit < rows), the search loop of
`infileRowLimitDivisor` starts at a divisor R / (rowLimit + 1) of at least 1, so
that it never divides by zero; the loop condition holds at the starting divisor
and fails at the next one, so that the loop stops after exactly one increment (one
pass does not suffice, two or more give the result); the function returns
R / (rowLimit + 1) + 1, where R is rows, or rows + 1 when the header row is
enabled; this divisor is at least 2 and is the smallest d of at least 1 with
R / d <= rowLimit. -/
theorem infileRowLimitDivisor_one_increment (w : Window) (disk : Disk) (rows : Nat)
    (hrows : infileNumberRows w disk = some rows) (hpos : 0 < w.comboRowLimit)
    (hlt : w.comboRowLimit < rows) (hsize : rows + 1 < quint64Size) :
    1 ≤ dividedRows rows w.checkBoxWriteColNames / (w.comboRowLimit + 1) ∧
    dividedRows rows w.checkBoxWriteColNames /
      (dividedRows rows w.checkBoxWriteColNames / (w.comboRowLimit + 1)) > w.comboRowLimit ∧
    ¬ dividedRows rows w.checkBoxWriteColNames /
      (dividedRows rows w.checkBoxWriteColNames / (w.comboRowLimit + 1) + 1) > w.comboRowLimit ∧
    divisorSearch (dividedRows rows w.checkBoxWriteColNames) w.comboRowLimit 1
      (dividedRows rows w.checkBoxWriteColNames / (w.comboRowLimit + 1)) = none ∧
    (∀ fuel, divisorSearch (dividedRows rows w.checkBoxWriteColNames) w.comboRowLimit (fuel + 2)
      (dividedRows rows w.checkBoxWriteColNames / (w.comboRowLimit + 1)) =
        some (dividedRows rows w.checkBoxWriteColNames / (w.comboRowLimit + 1) + 1)) ∧
    infileRowLimitDivisor w disk =
      some (dividedRows rows w.checkBoxWriteColNames / (w.comboRowLimit + 1) + 1) ∧
    2 ≤ dividedRows rows w.checkBoxWriteColNames / (w.comboRowLimit + 1) + 1 ∧
    dividedRows rows w.checkBoxWriteColNames /
      (dividedRows rows w.checkBoxWriteColNames / (w.comboRowLimit + 1) + 1) ≤ w.comboRowLimit ∧
    ∀ k, 1 ≤ k → k < dividedRows rows w.checkBoxWriteColNames / (w.comboRowLimit + 1) + 1 →
      w.comboRowLimit < dividedRows rows w.checkBoxWriteColNames / k := by
  have hD : w.comboRowLimit < dividedRows rows w.checkBoxWriteColNames ∧
      dividedRows rows w.checkBoxWriteColNames < quint64Size := by
    unfold dividedRows; split <;> omega
  obtain ⟨f1, f2, f3⟩ := divisor_start_facts _ _ hD.1
  refine ⟨f1, f2, f3, ?_, fun fuel => divisorSearch_start _ _ fuel hpos hD.1 hD.2, ?_, by omega,
    Nat.le_of_not_lt f3, ?_⟩
  · rw [divisorSearch, if_neg (by omega), if_pos f2, divisorSearch]
  · rw [infileRowLimitDivisor_of_rows w disk rows hrows, rowLimitDivisor_eq _ _ _ hpos hlt hsize]
  · intro k hk hkd
    have hks : k ≤ dividedRows rows w.checkBoxWriteColNames / (w.comboRowLimit + 1) :=
      Nat.lt_succ_iff.1 hkd
    have hmul : k * (w.comboRowLimit + 1) ≤ dividedRows rows w.checkBoxWriteColNames :=
      (Nat.le_div_iff_mul_le (Nat.succ_pos _)).1 hks
    apply Nat.lt_of_succ_le
    rw [Nat.le_div_iff_mul_le hk, Nat.mul_comm]
    exact hmul

/-- Witness for C22: 200 rows, limit 50, with the line of column names. -/
theorem infileRowLimitDivisor_one_increment_witness :
    1 ≤ dividedRows 200 limit50Names.checkBoxWriteColNames / (limit50Names.comboRowLimit + 1) ∧
    dividedRows 200 limit50Names.checkBoxWriteColNames /
      (dividedRows 200 limit50Names.checkBoxWriteColNames / (limit50Names.comboRowLimit + 1)) >
        limit50Names.comboRowLimit ∧
    ¬ dividedRows 200 limit50Names.checkBoxWriteColNames /
      (dividedRows 200 limit50Names.checkBoxWriteColNames / (limit50Names.comboRowLimit + 1) + 1) >
        limit50Names.comboRowLimit ∧
    divisorSearch (dividedRows 200 limit50Names.checkBoxWriteColNames) limit50Names.comboRowLimit 1
      (dividedRows 200 limit50Names.checkBoxWriteColNames / (limit50Names.comboRowLimit + 1)) =
        none ∧
    (∀ fuel, divisorSearch (dividedRows 200 limit50Names.checkBoxWriteColNames)
      limit50Names.comboRowLimit (fuel + 2)
      (dividedRows 200 limit50Names.checkBoxWriteColNames / (limit50Names.comboRowLimit + 1)) =
        some (dividedRows 200 limit50Names.checkBoxWriteColNames /
          (limit50Names.comboRowLimit + 1) + 1)) ∧
    infileRowLimitDivisor limit50Names (diskWith (List.replicate 200 0)) =
      some (dividedRows 200 limit50Names.checkBoxWriteColNames /
        (limit50Names.comboRowLimit + 1) + 1) ∧
    2 ≤ dividedRows 200 limit50Names.checkBoxWriteColNames / (limit50Names.comboRowLimit + 1) + 1 ∧
    dividedRows 200 limit50Names.checkBoxWriteColNames /
      (dividedRows 200 limit50Names.checkBoxWriteColNames / (limit50Names.comboRowLimit + 1) + 1) ≤
        limit50Names.comboRowLimit ∧
    ∀ k, 1 ≤ k →
      k < dividedRows 200 limit50Names.checkBoxWriteColNames /
        (limit50Names.comboRowLimit + 1) + 1 →
      limit50Names.comboRowLimit < dividedRows 200 limit50Names.checkBoxWriteColNames / k :=
  infileRowLimitDivisor_one_increment limit50Names (diskWith (List.replicate 200 0)) 200
    (infileNumberRows_full _ _ _ 200 (diskWith_openRead _) (by decide)
      (by rw [List.length_replicate]; decide) (by rw [List.length_replicate]; decide))
    (by decide) (by decide) (by decide)

/-! ## The rows of a run and their records -/

/-- The lines of the first `n` retained records, record by record: line number
`k` is the line of the bytes from offset `k * d * rowSize` on. -/
theorem rowsText_eq_flatMap (w : Window) (data : List Byte) (d n : Nat) :
    rowsText w data d n = (List.range n).flatMap (fun k =>
      rowText w ((data.drop (k * d * rowDataSize w)).take (rowDataSize w))) := by
  induction n with
  | zero => rfl
  | succ k ih =>
    rw [rowsText, ih, List.range_succ, List.flatMap_append]
    simp [recordAt]

/-- The row counter starts at 0 or at 1. -/
theorem dataToCsvStart_rowsOutput_le (w : Window) (infile : QFile) :
    (dataToCsvStart w infile).rowsOutput ≤ 1 := by
  unfold dataToCsvStart
  simp only
  split <;> omega

/-- A pass leaves the loop at the end of the file, at the row limit and on
cancellation. -/
theorem loopPass_exit_of_stop (w : Window) (wasCanceled : Nat → Bool) (l : Locals) (s : RunState)
    (h : s.infile.atEnd = true ∨ (l.rowLimit > 0 ∧ s.rowsOutput ≥ l.rowLimit) ∨
      (s.rowsOutput % 1024 = 0 ∧ wasCanceled s.rowsOutput = true)) :
    ∃ s', loopPass w wasCanceled l s = Pass.exit s' := by
  unfold loopPass
  by_cases hend : s.infile.atEnd = true
  · rw [if_pos hend]; exact ⟨_, rfl⟩
  · rw [if_neg hend]
    by_cases hlim : l.rowLimit > 0 ∧ s.rowsOutput ≥ l.rowLimit
    · rw [if_pos hlim]; exact ⟨_, rfl⟩
    · rw [if_neg hlim]
      rcases h with h | h | h
      · exact absurd h hend
      · exact absurd h hlim
      · rw [if_pos h]; exact ⟨_, rfl⟩

/-- A run over a file read without error.  If the first `n` retained records all
start inside the file, below the row limit and without a cancellation at their
check, and the file ends, the row limit is reached or the user has cancelled
after them, the loop makes exactly `n` passes: it writes the lines of the
records 0, `d`, ..., `(n - 1) * d` after the text it started with and counts
`n` rows. -/
theorem runLoop_passes (w : Window) (wasCanceled : Nat → Bool) (d : Nat) (infile : QFile) (n : Nat)
    (hd : 1 ≤ d) (hpos : infile.pos = 0) (herr : ∀ p, infile.readError p = false)
    (hfit : infile.data.length + rowDataSize w * d < quint64Size)
    (hgo : ∀ k, k < n → k * d * rowDataSize w < infile.data.length ∧
      ¬ (0 < w.comboRowLimit ∧ w.comboRowLimit ≤ (dataToCsvStart w infile).rowsOutput + k) ∧
      ¬ (((dataToCsvStart w infile).rowsOutput + k) % 1024 = 0 ∧
        wasCanceled ((dataToCsvStart w infile).rowsOutput + k) = true))
    (hstop : infile.data.length ≤ n * d * rowDataSize w ∨
      (0 < w.comboRowLimit ∧ w.comboRowLimit ≤ (dataToCsvStart w infile).rowsOutput + n) ∨
      (((dataToCsvStart w infile).rowsOutput + n) % 1024 = 0 ∧
        wasCanceled ((dataToCsvStart w infile).rowsOutput + n) = true))
    (hcount : (dataToCsvStart w infile).rowsOutput + n < quint64Size)
    (fuel : Nat) (hfuel : n < fuel) :
    ∃ s, runLoop w wasCanceled (dataToCsvLocals w d) fuel (dataToCsvStart w infile) = some s ∧
      s.ts = (dataToCsvStart w infile).ts ++ rowsText w infile.data d n ∧
      s.rowsOutput = (dataToCsvStart w infile).rowsOutput + n := by
  have hpasses : ∀ k, k ≤ n →
      ∃ s, afterPasses w wasCanceled (dataToCsvLocals w d) k (dataToCsvStart w infile) = some s ∧
        s.rowsOutput = (dataToCsvStart w infile).rowsOutput + k := by
    intro k
    induction k with
    | zero => exact fun _ => ⟨_, rfl, rfl⟩
    | succ j ih =>
      intro hj
      obtain ⟨s, hs, hr⟩ := ih (by omega)
      obtain ⟨g1, g2, g3⟩ := hgo j (by omega)
      obtain ⟨_, i2, _, i4, _, _⟩ :=
        afterPasses_trace w wasCanceled d infile hd hpos herr hfit j s hs
      have hend : s.infile.atEnd = false := by
        unfold QFile.atEnd
        rw [i2]
        rcases i4 with h4 | ⟨_, h4⟩
        · rw [h4]; simpa using g1
        · omega
      obtain ⟨s', hp⟩ := loopPass_again_of w wasCanceled (dataToCsvLocals w d) s hend
        (by rw [hr]; exact fun h => g2 ⟨h.1, h.2⟩) (by rw [hr]; exact g3)
      obtain ⟨_, a2, _⟩ := loopPass_again _ _ _ _ _ hp
      refine ⟨s', afterPasses_step _ _ _ _ _ _ _ hs hp, ?_⟩
      rw [a2, hr, Nat.mod_eq_of_lt (by omega)]
      omega
  obtain ⟨s, hs, hr⟩ := hpasses n (Nat.le_refl _)
  obtain ⟨i1, i2, _, i4, _, _⟩ :=
    afterPasses_trace w wasCanceled d infile hd hpos herr hfit n s hs
  obtain ⟨sf, hexit⟩ : ∃ sf, loopPass w wasCanceled (dataToCsvLocals w d) s = Pass.exit sf := by
    apply loopPass_exit_of_stop
    rcases hstop with h | h | h
    · left
      unfold QFile.atEnd
      rw [i2]
      rcases i4 with h4 | ⟨h4, _⟩
      · rw [h4]; simpa using h
      · simpa using h4
    · right; left
      rw [hr]
      exact ⟨h.1, h.2⟩
    · right; right
      rw [hr]
      exact h
  obtain ⟨e1, e2⟩ := loopPass_exit _ _ _ _ _ hexit
  exact ⟨sf, runLoop_of_afterPasses _ _ _ n fuel _ s sf hs hexit hfuel, by rw [e1, i1],
    by rw [e2, hr]⟩

/-- Over a file with records of at least one byte the loop of `dataToCsv` meets
one of its three ways out after at most as many passes as the file has bytes:
there is a first pass number at which the file is at its end, the row limit is
reached or the user has cancelled. -/
theorem stop_exists (len step rowLimit r0 : Nat) (wasCanceled : Nat → Bool) (hstep : 1 ≤ step) :
    ∃ n, n ≤ len ∧
      (∀ k, k < n → k * step < len ∧ ¬ (0 < rowLimit ∧ rowLimit ≤ r0 + k) ∧
        ¬ ((r0 + k) % 1024 = 0 ∧ wasCanceled (r0 + k) = true)) ∧
      (len ≤ n * step ∨ (0 < rowLimit ∧ rowLimit ≤ r0 + n) ∨
        ((r0 + n) % 1024 = 0 ∧ wasCanceled (r0 + n) = true)) := by
  have hex : ∃ n, len ≤ n * step ∨ (0 < rowLimit ∧ rowLimit ≤ r0 + n) ∨
      ((r0 + n) % 1024 = 0 ∧ wasCanceled (r0 + n) = true) :=
    ⟨len, Or.inl (Nat.le_mul_of_pos_right len hstep)⟩
  refine ⟨Nat.find hex, Nat.find_min' hex (Or.inl (Nat.le_mul_of_pos_right len hstep)),
    fun k hk => ?_, Nat.find_spec hex⟩
  have hno := Nat.find_min hex hk
  simp only [not_or] at hno
  exact ⟨Nat.lt_of_not_le hno.1, hno.2.1, hno.2.2⟩

/-- C13 as stated fails: the first record is not always retained.  With the
line of column names and a row limit of 1, on an input of three records of one
byte, the divisor is 3 and every finished run of `dataToCsv` writes the line of
column names and nothing else: that line is counted as a row, so the row limit is
reached before the first pass of the loop, and the line `10,` of the first
record is not written. -/
theorem dataToCsv_header_only :
    limit1Names.Valid ∧ limit1Names.checkBoxWriteColNames = true ∧ limit1Names.comboRowLimit = 1 ∧
    rowDataSize limit1Names = 1 ∧
    (csvOpenFiles limit1Names (quietEnv [10, 20, 30])).errorState = false ∧
    infileRowLimitDivisor limit1Names (csvOpenFiles limit1Names (quietEnv [10, 20, 30])).disk =
      some 3 ∧
    (∀ fuel, 0 < fuel → (dataToCsv limit1Names (quietEnv [10, 20, 30]) fuel).map (fun o => o.ts) =
      some [Tok.text "count", Tok.comma, Tok.endl]) ∧
    rowText limit1Names (([10, 20, 30] : List Byte).drop (0 * 3 * 1) |>.take 1) =
      [Tok.integer 10, Tok.comma, Tok.endl] := by
  refine ⟨by decide, rfl, rfl, by decide, by decide, by decide, fun fuel hfuel => ?_, by decide⟩
  obtain ⟨m, rfl⟩ : ∃ m, fuel = m + 1 := ⟨fuel - 1, by omega⟩
  rfl

/-- C13 (amended): for every input read without error, every record size
`rowSize ≥ 1` and the divisor `d` that `infileRowLimitDivisor` returns (it is at
least 1), `dataToCsv` returns, and writes after the line of column names, if
enabled, exactly `n` data rows, where `n` is the number of the first loop pass,
counted from 0, at which the file is at its end (`fileSize ≤ n * d * rowSize`),
the row limit is reached by the row counter (which starts at 1 when the line of
column names was written and counted, at 0 otherwise) or the user has cancelled
at a check point.  For every `k < n` data row number `k` is the line of the
record that starts at byte offset `k * d * rowSize`, inside the file: only whole
records are skipped between retained rows, and the data rows stand in the order
of their records.  The first record is retained exactly when `n ≥ 1`, that is,
when the input is not empty, the row limit is not used up before the first pass
and the run is not cancelled at its first check. -/
theorem dataToCsv_rows_at_stride (w : Window) (env : Env) (d : Nat)
    (hopen : (csvOpenFiles w env).errorState = false)
    (hdiv : infileRowLimitDivisor w (csvOpenFiles w env).disk = some d)
    (hsize : 1 ≤ rowDataSize w) (herr : ∀ p, env.readError p = false)
    (hfit : (csvOpenFiles w env).infile.data.length + rowDataSize w * d < quint64Size) :
    1 ≤ d ∧
    ∃ n,
      (∀ k, k < n →
        k * d * rowDataSize w < (csvOpenFiles w env).infile.data.length ∧
        ¬ (0 < w.comboRowLimit ∧
          w.comboRowLimit ≤ (dataToCsvStart w (csvOpenFiles w env).infile).rowsOutput + k) ∧
        ¬ (((dataToCsvStart w (csvOpenFiles w env).infile).rowsOutput + k) % 1024 = 0 ∧
          env.wasCanceled ((dataToCsvStart w (csvOpenFiles w env).infile).rowsOutput + k) = true)) ∧
      ((csvOpenFiles w env).infile.data.length ≤ n * d * rowDataSize w ∨
        (0 < w.comboRowLimit ∧
          w.comboRowLimit ≤ (dataToCsvStart w (csvOpenFiles w env).infile).rowsOutput + n) ∨
        (((dataToCsvStart w (csvOpenFiles w env).infile).rowsOutput + n) % 1024 = 0 ∧
          env.wasCanceled ((dataToCsvStart w (csvOpenFiles w env).infile).rowsOutput + n) = true)) ∧
      (∀ fuel, n < fuel → ∃ o, dataToCsv w env fuel = some o ∧
        o.ts = (if w.checkBoxWriteColNames then (csvWriteColumnNames w []).2 else []) ++
          (List.range n).flatMap (fun k =>
            rowText w (((csvOpenFiles w env).infile.data.drop (k * d * rowDataSize w)).take
              (rowDataSize w))) ∧
        o.rowsOutput = (dataToCsvStart w (csvOpenFiles w env).infile).rowsOutput + n) ∧
      (1 ≤ n ↔
        (0 < (csvOpenFiles w env).infile.data.length ∧
          ¬ (0 < w.comboRowLimit ∧
            w.comboRowLimit ≤ (dataToCsvStart w (csvOpenFiles w env).infile).rowsOutput) ∧
          ¬ ((dataToCsvStart w (csvOpenFiles w env).infile).rowsOutput % 1024 = 0 ∧
            env.wasCanceled (dataToCsvStart w (csvOpenFiles w env).infile).rowsOutput = true))) := by
  have hd : 1 ≤ d := infileRowLimitDivisor_pos _ _ _ hdiv
  obtain ⟨hpos, hre⟩ := csvOpenFiles_infile w env
  have herr' : ∀ p, (csvOpenFiles w env).infile.readError p = false := by rw [hre]; exact herr
  have hstep : 1 ≤ d * rowDataSize w := Nat.mul_pos hd hsize
  obtain ⟨n, hn, hgo, hstop⟩ := stop_exists (csvOpenFiles w env).infile.data.length
    (d * rowDataSize w) w.comboRowLimit
    (dataToCsvStart w (csvOpenFiles w env).infile).rowsOutput env.wasCanceled hstep
  simp only [← Nat.mul_assoc] at hgo hstop
  have hr0 := dataToCsvStart_rowsOutput_le w (csvOpenFiles w env).infile
  have hcount : (dataToCsvStart w (csvOpenFiles w env).infile).rowsOutput + n < quint64Size := by
    have : 1 ≤ rowDataSize w * d := Nat.mul_pos hsize hd
    omega
  refine ⟨hd, n, hgo, hstop, fun fuel hfuel => ?_, ?_⟩
  · obtain ⟨s, hs, s1, s2⟩ := runLoop_passes w env.wasCanceled d (csvOpenFiles w env).infile n hd
      hpos herr' hfit hgo hstop hcount fuel hfuel
    unfold dataToCsv
    simp only [hopen, Bool.false_eq_true, if_false, hdiv, hs]
    refine ⟨_, rfl, ?_, ?_⟩
    · simp only
      rw [s1, rowsText_eq_flatMap]
      rfl
    · simp only
      rw [s2]
  · constructor
    · intro h1
      have h0 := hgo 0 (by omega)
      simpa using h0
    · intro h0
      by_contra hn0
      have hz : n = 0 := by omega
      subst hz
      simp only [Nat.zero_mul, Nat.add_zero] at hstop
      rcases hstop with h | h | h
      · omega
      · exact h0.2.1 h
      · exact h0.2.2 h

/-- Witness for C13 (amended): five records of one byte under a row limit of 2,
for which the divisor is 2. -/
theorem dataToCsv_rows_at_stride_witness :
    (csvOpenFiles limit2 (quietEnv [10, 20, 30, 40, 50])).errorState = false ∧
    infileRowLimitDivisor limit2 (csvOpenFiles limit2 (quietEnv [10, 20, 30, 40, 50])).disk =
      some 2 ∧
    1 ≤ rowDataSize limit2 ∧
    (1 ≤ 2 ∧
    ∃ n,
      (∀ k, k < n →
        k * 2 * rowDataSize limit2 <
          (csvOpenFiles limit2 (quietEnv [10, 20, 30, 40, 50])).infile.data.length ∧
        ¬ (0 < limit2.comboRowLimit ∧
          limit2.comboRowLimit ≤
            (dataToCsvStart limit2
              (csvOpenFiles limit2 (quietEnv [10, 20, 30, 40, 50])).infile).rowsOutput + k) ∧
        ¬ (((dataToCsvStart limit2
              (csvOpenFiles limit2 (quietEnv [10, 20, 30, 40, 50])).infile).rowsOutput + k) %
              1024 = 0 ∧
          (quietEnv [10, 20, 30, 40, 50]).wasCanceled
            ((dataToCsvStart limit2
              (csvOpenFiles limit2 (quietEnv [10, 20, 30, 40, 50])).infile).rowsOutput + k) =
            true)) ∧
      ((csvOpenFiles limit2 (quietEnv [10, 20, 30, 40, 50])).infile.data.length ≤
          n * 2 * rowDataSize limit2 ∨
        (0 < limit2.comboRowLimit ∧
          limit2.comboRowLimit ≤
            (dataToCsvStart limit2
              (csvOpenFiles limit2 (quietEnv [10, 20, 30, 40, 50])).infile).rowsOutput + n) ∨
        (((dataToCsvStart limit2
              (csvOpenFiles limit2 (quietEnv [10, 20, 30, 40, 50])).infile).rowsOutput + n) %
              1024 = 0 ∧
          (quietEnv [10, 20, 30, 40, 50]).wasCanceled
            ((dataToCsvStart limit2
              (csvOpenFiles limit2 (quietEnv [10, 20, 30, 40, 50])).infile).rowsOutput + n) =
            true)) ∧
      (∀ fuel, n < fuel → ∃ o, dataToCsv limit2 (quietEnv [10, 20, 30, 40, 50]) fuel = some o ∧
        o.ts = (if limit2.checkBoxWriteColNames then (csvWriteColumnNames limit2 []).2 else []) ++
          (List.range n).flatMap (fun k =>
            rowText limit2
              (((csvOpenFiles limit2 (quietEnv [10, 20, 30, 40, 50])).infile.data.drop
                (k * 2 * rowDataSize limit2)).take (rowDataSize limit2))) ∧
        o.rowsOutput =
          (dataToCsvStart limit2
            (csvOpenFiles limit2 (quietEnv [10, 20, 30, 40, 50])).infile).rowsOutput + n) ∧
      (1 ≤ n ↔
        (0 < (csvOpenFiles limit2 (quietEnv [10, 20, 30, 40, 50])).infile.data.length ∧
          ¬ (0 < limit2.comboRowLimit ∧
            limit2.comboRowLimit ≤
              (dataToCsvStart limit2
                (csvOpenFiles limit2 (quietEnv [10, 20, 30, 40, 50])).infile).rowsOutput) ∧
          ¬ ((dataToCsvStart limit2
                (csvOpenFiles limit2 (quietEnv [10, 20, 30, 40, 50])).infile).rowsOutput %
                1024 = 0 ∧
            (quietEnv [10, 20, 30, 40, 50]).wasCanceled
              (dataToCsvStart limit2
                (csvOpenFiles limit2 (quietEnv [10, 20, 30, 40, 50])).infile).rowsOutput =
              true)))) :=
  ⟨by decide, by decide, by decide,
    dataToCsv_rows_at_stride limit2 (quietEnv [10, 20, 30, 40, 50]) 2 (by decide) (by decide)
      (by decide) (fun _ => rfl) (by decide)⟩

/-- With five records of one byte and a row limit of 2 the divisor is 2 and the run
writes the lines of the records 0 and 2, then stops at the row limit. -/
theorem dataToCsv_stride_example :
    infileRowLimitDivisor limit2 (csvOpenFiles limit2 (quietEnv [10, 20, 30, 40, 50])).disk =
      some 2 ∧
    (dataToCsv limit2 (quietEnv [10, 20, 30, 40, 50]) 2).isNone = true ∧
    (dataToCsv limit2 (quietEnv [10, 20, 30, 40, 50]) 3).map (fun o => (o.ts, o.rowsOutput)) =
      some ([Tok.integer 10, Tok.comma, Tok.endl, Tok.integer 30, Tok.comma, Tok.endl], 2) := by
  decide

end CnbDataParser
